import Mathlib

/-!
# SatNet — verification of the routing core, visibility geometry and simulation engine

Shallow embedding of the Go sources:
* `backend/routing/graph.go` and `backend/routing/pathfinding.go` (graph builder,
  Dijkstra/A* shortest path, Yen's k-alternative loopless routes),
* the `visibility` package (slant range, elevation, segment/Earth intersection),
* `backend/coverage/grid.go` (coverage grid),
* the `simulation` package in `backend/cmd/api` (simulator state machine).

Modeling conventions:
* Go `float64` values are modeled exactly: the algorithmic layer is generic over a
  `LinearOrderedField α` (instantiated at `ℚ` for executable tests and at `ℝ` for the
  geometric layer); the geometry itself lives over `ℝ`.
* Go `map[string]V` is modeled as an association list with overwrite-on-insert and
  first-match lookup, so insertion has Go's assignment semantics.  Go's randomized
  map iteration order is surfaced explicitly where it is observable (the simulator's
  roster enumeration).
* `container/heap` (a binary min-heap ordered by strict `<` on `cost`, ties broken by
  heap shape) is modeled as a cost-sorted list with stable insertion: `pqPush` places a
  new entry after all entries whose cost is `≤` its own.  Every property proved below
  is independent of the tie order; tie-sensitive counterexamples depend only on the
  fact that the tie order is *some* fixed order of insertion.
* Go's unbounded `for` loops are modeled with an explicit fuel argument plus a proof
  that the chosen fuel is sufficient under the graph invariants; `PathError.outOfFuel`
  is the (provably unreachable, under those invariants) fuel-exhaustion artifact.
-/

set_option linter.unusedSectionVars false
set_option linter.unnecessarySeqFocus false

namespace SatNet

/-! ## Association-list maps (Go `map[string]V`) -/

def mlookup {V : Type} : List (String × V) → String → Option V
  | [], _ => none
  | (k, v) :: rest, key => if k = key then some v else mlookup rest key

def minsert {V : Type} : List (String × V) → String → V → List (String × V)
  | [], key, v => [(key, v)]
  | (k, w) :: rest, key, v =>
    if k = key then (k, v) :: rest else (k, w) :: minsert rest key v

def mdelete {V : Type} : List (String × V) → String → List (String × V)
  | [], _ => []
  | (k, w) :: rest, key =>
    if k = key then mdelete rest key else (k, w) :: mdelete rest key

instance {E A : Type} [DecidableEq E] [DecidableEq A] : DecidableEq (Except E A) :=
  fun x y =>
    match x, y with
    | .ok a, .ok b => decidable_of_iff (a = b) (by simp)
    | .error a, .error b => decidable_of_iff (a = b) (by simp)
    | .ok _, .error _ => isFalse (by simp)
    | .error _, .ok _ => isFalse (by simp)

/-! ## Graph data model (`backend/routing/graph.go`) -/

/-- `routing.NodeType` ("satellite" / "ground"). -/
inductive NodeType
  | satellite
  | ground
deriving DecidableEq, Repr

/-- `routing.Node`: a node participating in routing.  The position type `P` is kept
abstract in the algorithmic layer and instantiated with `Vector3` (over `ℝ`) for the
real geometry. -/
structure GNode (P : Type) where
  id : String
  ntype : NodeType
  pos : P
deriving Repr

/-- `routing.Edge`: link characteristics between two nodes (`From`/`To`/`LatencyMS`/
`Throughput` in the source). -/
structure Edge (α : Type) where
  src : String
  dst : String
  latencyMS : α
  throughput : α
deriving Repr, DecidableEq

/-- `routing.Graph`: node map plus adjacency map. -/
structure Graph (α P : Type) where
  nodes : List (String × GNode P)
  adj : List (String × List (Edge α))
deriving Repr

variable {α : Type} [LinearOrderedCommRing α] {P : Type}

/-- `g.Adj[u]` — a missing key yields the empty slice, as in Go. -/
def adjList (g : Graph α P) (u : String) : List (Edge α) :=
  (mlookup g.adj u).getD []

/-- Whether `u` is a key of `g.Nodes`. -/
def hasNode (g : Graph α P) (u : String) : Bool :=
  (mlookup g.nodes u).isSome

/-- `Graph.Clone`: a deep copy.  Lean data is immutable, so the copy is the graph
itself; all downstream mutation is functional. -/
def Clone (g : Graph α P) : Graph α P := g

/-- `Graph.RemoveEdge`: drop every directed edge `u → v`; if the filtered adjacency
slice becomes empty the key is deleted (exactly as the source does). -/
def RemoveEdge (g : Graph α P) (u v : String) : Graph α P :=
  let edges := adjList g u
  let filtered := edges.filter (fun e => e.dst ≠ v)
  if filtered.isEmpty then { g with adj := mdelete g.adj u }
  else { g with adj := minsert g.adj u filtered }

/-- `Graph.RemoveNode`: delete the node, its outgoing adjacency, and every incoming
edge (the source iterates the remaining adjacency keys and calls `RemoveEdge`). -/
def RemoveNode (g : Graph α P) (id : String) : Graph α P :=
  let g1 : Graph α P := { nodes := mdelete g.nodes id, adj := mdelete g.adj id }
  (g1.adj.map Prod.fst).foldl (fun acc u => RemoveEdge acc u id) g1

/-- `routing.Path`: node sequence plus cumulative metrics.  `math.Inf(1)` (the
bottleneck of a trivial path) is `⊤ : WithTop α`. -/
structure PathR (α : Type) where
  nodes : List String
  latencyMS : α
  bottleneck : WithTop α
deriving Repr, DecidableEq

/-- Errors surfaced by the routing layer, one constructor per `errors.New`/`fmt.Errorf`
site in the source.  `outOfFuel` is the loop-fuel modeling artifact. -/
inductive PathError
  | unknownStart (id : String)
  | unknownGoal (id : String)
  | noRoute
  | missingEdge
  | outOfFuel
deriving DecidableEq, Repr

/-- The first edge `u → v` in `g.Adj[u]`, which is the edge `computePathMetrics`
replays (it scans the slice in order and `break`s at the first match). -/
def findEdge (g : Graph α P) (u v : String) : Option (Edge α) :=
  (adjList g u).find? (fun e => e.dst = v)

/-- `Graph.computePathMetrics`: total latency and bottleneck throughput of a node
sequence, replayed against the graph; a missing edge is an error
("path references missing edge"). -/
def computePathMetrics (g : Graph α P) : List String → Except PathError (α × WithTop α)
  | u :: v :: rest =>
    match findEdge g u v with
    | none => .error .missingEdge
    | some e =>
      match computePathMetrics g (v :: rest) with
      | .error err => .error err
      | .ok (lat, bot) => .ok (e.latencyMS + lat, min (e.throughput : WithTop α) bot)
  | _ => .ok (0, ⊤)

/-! ## Shortest path (`backend/routing/pathfinding.go`) -/

/-- `nodeCost`: a frontier entry carrying the full path taken so far.  `cost` is the
estimated total (`g` + heuristic-to-goal), `g` the accumulated latency. -/
structure NodeCost (α : Type) where
  id : String
  cost : α
  g : α
  path : List String
deriving Repr, DecidableEq

/-- The priority queue, modeled as a list sorted by `cost` with stable insertion
(see the module docstring for the relation to `container/heap`). -/
def pqPush : List (NodeCost α) → NodeCost α → List (NodeCost α)
  | [], e => [e]
  | x :: xs, e => if x.cost ≤ e.cost then x :: pqPush xs e else e :: x :: xs

/-- The Go skip test `prev, ok := visited[id]; ok && current.g >= prev`. -/
def skipCond (visited : List (String × α)) (cur : NodeCost α) : Bool :=
  match mlookup visited cur.id with
  | some prev => decide (prev ≤ cur.g)
  | none => false

/-- One frontier expansion: relax every outgoing edge of `cur` into a new entry. -/
def expandEdges (h : String → α) (cur : NodeCost α) (pq : List (NodeCost α))
    (edges : List (Edge α)) : List (NodeCost α) :=
  edges.foldl
    (fun q e =>
      pqPush q
        ⟨e.dst, cur.g + e.latencyMS + h e.dst, cur.g + e.latencyMS,
          cur.path ++ [e.dst]⟩)
    pq

/-- The main search loop of `ShortestPath`, with explicit fuel. -/
def spLoop (g : Graph α P) (goal : String) (h : String → α) :
    Nat → List (NodeCost α) → List (String × α) → Except PathError (PathR α)
  | 0, _, _ => .error .outOfFuel
  | Nat.succ fuel, pq, visited =>
    match pq with
    | [] => .error .noRoute
    | cur :: rest =>
      if skipCond visited cur then spLoop g goal h fuel rest visited
      else
        let visited1 := minsert visited cur.id cur.g
        if cur.id = goal then
          match computePathMetrics g cur.path with
          | .error e => .error e
          | .ok (lat, bot) => .ok ⟨cur.path, lat, bot⟩
        else
          spLoop g goal h fuel (expandEdges h cur rest (adjList g cur.id)) visited1

/-- Total number of edge records in the adjacency map. -/
def totalDeg (g : Graph α P) : Nat :=
  (g.adj.map (fun kv => kv.2.length)).sum

/-- Fuel that provably suffices for the search loop under the graph invariants. -/
def fuelFor (g : Graph α P) : Nat := 2 + totalDeg g

/-- `routing.ShortestPath`.  The Go `nil` heuristic default is the all-zero function;
callers here always pass the heuristic explicitly. -/
def ShortestPath (g : Graph α P) (start goal : String) (h : String → α) :
    Except PathError (PathR α) :=
  if ¬ hasNode g start then .error (.unknownStart start)
  else if ¬ hasNode g goal then .error (.unknownGoal goal)
  else spLoop g goal h (fuelFor g) [⟨start, h start, 0, [start]⟩] []

/-! ## K alternative routes (`KAlternativeRoutes`, Yen's algorithm) -/

/-- A candidate entry in the `potential` pool.  The source reuses `nodeCost` with
`cost := latency` and `g := throughput`; the throughput can be `math.Inf(1)`, hence
the separate record with a `WithTop α` field. -/
structure CandEntry (α : Type) where
  cost : α
  thr : WithTop α
  nodes : List String
deriving Repr, DecidableEq

/-- Pool insertion, same cost-sorted stable discipline as `pqPush`. -/
def pqPushC : List (CandEntry α) → CandEntry α → List (CandEntry α)
  | [], e => [e]
  | x :: xs, e => if x.cost ≤ e.cost then x :: pqPushC xs e else e :: x :: xs

/-- The spur computation for spur index `i` along `prev` (the last accepted path):
remove the next-links of accepted paths sharing the exact root, remove every root
node strictly before the spur node, search, splice, and recompute true metrics. -/
def yenSpurStep (base : Graph α P) (goal : String) (paths : List (PathR α))
    (prev : PathR α) (i : Nat) : Option (CandEntry α) :=
  let spurNode := prev.nodes.getD i ""
  let rootPath := prev.nodes.take (i + 1)
  let g1 := paths.foldl
    (fun acc p =>
      if i < p.nodes.length ∧ p.nodes.take (i + 1) = rootPath then
        RemoveEdge acc (p.nodes.getD i "") (p.nodes.getD (i + 1) "")
      else acc)
    base
  let spurGraph := rootPath.dropLast.foldl (fun acc rn => RemoveNode acc rn) g1
  match ShortestPath spurGraph spurNode goal (fun _ => 0) with
  | .error _ => none
  | .ok spurPath =>
    let newPathNodes := rootPath.dropLast ++ spurPath.nodes
    match computePathMetrics base newPathNodes with
    | .error _ => none
    | .ok (lat, thr) => some ⟨lat, thr, newPathNodes⟩

/-- One outer round (`pathIndex`) of Yen's loop: push every spur candidate of the
previous accepted path into the pool, then accept the pool minimum; report `true`
for the `break` when the pool is empty. -/
def yenRound (base : Graph α P) (goal : String) (paths : List (PathR α))
    (pool : List (CandEntry α)) : List (PathR α) × List (CandEntry α) × Bool :=
  match paths.getLast? with
  | none => (paths, pool, true)
  | some prev =>
    let pool1 := (List.range (prev.nodes.length - 1)).foldl
      (fun acc i =>
        match yenSpurStep base goal paths prev i with
        | none => acc
        | some c => pqPushC acc c)
      pool
    match pool1 with
    | [] => (paths, pool1, true)
    | c :: rest => (paths ++ [⟨c.nodes, c.cost, c.thr⟩], rest, false)

/-- The outer loop, `k - 1` rounds with early break. -/
def yenLoop (base : Graph α P) (goal : String) :
    Nat → List (PathR α) → List (CandEntry α) → List (PathR α)
  | 0, paths, _ => paths
  | Nat.succ n, paths, pool =>
    match yenRound base goal paths pool with
    | (paths', pool', stop) =>
      if stop then paths' else yenLoop base goal n paths' pool'

/-- Errors of `KAlternativeRoutes`: "k must be positive", or the error of the primary
shortest-path search. -/
inductive KErr
  | kNotPositive
  | search (e : PathError)
deriving DecidableEq, Repr

/-- `routing.KAlternativeRoutes`. -/
def KAlternativeRoutes (g : Graph α P) (start goal : String) (k : Int) :
    Except KErr (List (PathR α)) :=
  if k ≤ 0 then .error .kNotPositive
  else
    let base := Clone g
    match ShortestPath base start goal (fun _ => 0) with
    | .error e => .error (.search e)
    | .ok primary => .ok (yenLoop base goal (k - 1).toNat [primary] [])

/-! ## Path predicates and the graph well-formedness invariant

`IsChain g l` says consecutive elements of `l` are joined by edges of `g`;
`IsPathFrom g s t l` is a nonempty chain from `s` to `t` — exactly the node
sequences the search can traverse.  `latSum`/`botMin` are the metrics
`computePathMetrics` replays (it takes the *first* matching edge of the
adjacency slice, as `findEdge` does). -/

def IsChain (g : Graph α P) : List String → Prop
  | u :: v :: rest => (findEdge g u v).isSome = true ∧ IsChain g (v :: rest)
  | _ => True

instance instDecIsChain (g : Graph α P) : (l : List String) → Decidable (IsChain g l)
  | [] => isTrue trivial
  | [_] => isTrue trivial
  | u :: v :: rest =>
    match instDecIsChain g (v :: rest) with
    | isTrue h2 =>
      if h1 : (findEdge g u v).isSome = true then isTrue ⟨h1, h2⟩
      else isFalse (fun hc => h1 hc.1)
    | isFalse h2 => isFalse (fun hc => h2 hc.2)

def IsPathFrom (g : Graph α P) (s t : String) (l : List String) : Prop :=
  l.head? = some s ∧ l.getLast? = some t ∧ IsChain g l

instance (g : Graph α P) (s t : String) (l : List String) :
    Decidable (IsPathFrom g s t l) := by
  unfold IsPathFrom; infer_instance

/-- Latency of the (first-match) edge `u → v`, `0` when absent. -/
def edgeLat (g : Graph α P) (u v : String) : α :=
  ((findEdge g u v).map Edge.latencyMS).getD 0

/-- Total latency along a node sequence, replaying first-match edges. -/
def latSum (g : Graph α P) : List String → α
  | u :: v :: rest => edgeLat g u v + latSum g (v :: rest)
  | _ => 0

/-- Throughput of the (first-match) edge `u → v`, `⊤` when absent. -/
def edgeThr (g : Graph α P) (u v : String) : WithTop α :=
  ((findEdge g u v).map (fun e => (e.throughput : WithTop α))).getD ⊤

/-- Bottleneck (minimum) throughput along a node sequence. -/
def botMin (g : Graph α P) : List String → WithTop α
  | u :: v :: rest => min (edgeThr g u v) (botMin g (v :: rest))
  | _ => ⊤

/-- The data-model invariant of a routing graph (spec §3): nonnegative link
latencies, link endpoints present as nodes, the adjacency key is the link's
from-node, and at most one link per ordered node pair.  `BuildGraph` establishes
it for duplicate-free node lists, and the structural edits preserve it. -/
structure WellFormed (g : Graph α P) : Prop where
  nonneg : ∀ u, ∀ e ∈ adjList g u, 0 ≤ e.latencyMS
  closed : ∀ u, ∀ e ∈ adjList g u, hasNode g u = true ∧ hasNode g e.dst = true
  srcEq : ∀ u, ∀ e ∈ adjList g u, e.src = u
  noPar : ∀ u, ((adjList g u).map Edge.dst).Nodup

/-! ### Association-list lemmas -/

theorem mlookup_minsert_self {V : Type} (m : List (String × V)) (k : String) (v : V) :
    mlookup (minsert m k v) k = some v := by
  induction m with
  | nil => simp [minsert, mlookup]
  | cons kv rest ih =>
    obtain ⟨k', v'⟩ := kv
    by_cases hk : k' = k
    · subst hk; simp [minsert, mlookup]
    · simp [minsert, hk, mlookup, ih]

theorem mlookup_minsert_ne {V : Type} (m : List (String × V)) (k x : String) (v : V)
    (hx : x ≠ k) : mlookup (minsert m k v) x = mlookup m x := by
  induction m with
  | nil =>
    have : ¬ k = x := fun h => hx h.symm
    simp [minsert, mlookup, this]
  | cons kv rest ih =>
    obtain ⟨k', v'⟩ := kv
    by_cases hk : k' = k
    · subst hk
      have hkx : ¬ k' = x := fun h => hx (h.symm)
      simp [minsert, mlookup, hkx]
    · by_cases hkx : k' = x
      · subst hkx
        simp [minsert, hk, mlookup, hx]
      · simp [minsert, hk, mlookup, hkx, ih]

theorem mlookup_mdelete {V : Type} (m : List (String × V)) (k x : String) :
    mlookup (mdelete m k) x = if x = k then none else mlookup m x := by
  induction m with
  | nil => simp [mdelete, mlookup]
  | cons kv rest ih =>
    obtain ⟨k', v'⟩ := kv
    by_cases hk : k' = k
    · subst hk
      by_cases hkx : x = k'
      · subst hkx
        simp [mdelete, mlookup, ih]
      · have hkx2 : ¬ k' = x := fun h => hkx h.symm
        simp [mdelete, mlookup, ih, hkx, hkx2]
    · by_cases hkx : k' = x
      · subst hkx
        have hxk : ¬ k' = k := hk
        simp [mdelete, hk, mlookup, ih, hxk]
      · simp [mdelete, hk, mlookup, hkx, ih]

/-! ### Metrics lemmas -/

theorem computePathMetrics_eq_of_chain (g : Graph α P) (l : List String)
    (hc : IsChain g l) : computePathMetrics g l = .ok (latSum g l, botMin g l) := by
  induction l with
  | nil => simp [computePathMetrics, latSum, botMin]
  | cons u rest ih =>
    cases rest with
    | nil => simp [computePathMetrics, latSum, botMin]
    | cons v rest2 =>
      obtain ⟨h1, h2⟩ := hc
      obtain ⟨e, he⟩ := Option.isSome_iff_exists.mp h1
      rw [computePathMetrics, he, ih h2]
      simp [latSum, botMin, edgeLat, edgeThr, he]

/-- The step relation underlying `IsChain`. -/
def StepRel (g : Graph α P) (u v : String) : Prop :=
  (findEdge g u v).isSome = true

theorem isChain_iff_chain' (g : Graph α P) (l : List String) :
    IsChain g l ↔ List.Chain' (StepRel g) l := by
  induction l with
  | nil => simp [IsChain]
  | cons u rest ih =>
    cases rest with
    | nil => simp [IsChain]
    | cons v rest2 =>
      rw [List.chain'_cons]
      unfold IsChain
      rw [ih]
      rfl

theorem isChain_suffix (g : Graph α P) (xs ys : List String)
    (hc : IsChain g (xs ++ ys)) : IsChain g ys := by
  rw [isChain_iff_chain'] at hc ⊢
  exact (List.chain'_append.mp hc).2.1

theorem isChain_take (g : Graph α P) (xs ys : List String)
    (hc : IsChain g (xs ++ ys)) : IsChain g xs := by
  rw [isChain_iff_chain'] at hc ⊢
  exact (List.chain'_append.mp hc).1

theorem isChain_snoc (g : Graph α P) (l : List String) (w v : String)
    (hc : IsChain g l) (hlast : l.getLast? = some w) (he : StepRel g w v) :
    IsChain g (l ++ [v]) := by
  rw [isChain_iff_chain'] at hc ⊢
  rw [List.chain'_append]
  refine ⟨hc, List.chain'_singleton v, ?_⟩
  intro x hx y hy
  simp only [List.head?_cons, Option.mem_def, Option.some.injEq] at hy
  rw [hlast] at hx
  simp only [Option.mem_def, Option.some.injEq] at hx
  rw [← hx, ← hy]
  exact he

theorem latSum_append_cons (g : Graph α P) (xs : List String) (w : String)
    (ys : List String) :
    latSum g (xs ++ w :: ys) = latSum g (xs ++ [w]) + latSum g (w :: ys) := by
  induction xs with
  | nil => simp [latSum]
  | cons x xs ih =>
    cases xs with
    | nil => simp [latSum, add_assoc]
    | cons x' xs' =>
      have h1 : (x :: x' :: xs') ++ w :: ys = x :: (x' :: (xs' ++ w :: ys)) := by simp
      have h2 : (x :: x' :: xs') ++ [w] = x :: (x' :: (xs' ++ [w])) := by simp
      rw [h1, h2]
      show edgeLat g x x' + latSum g (x' :: (xs' ++ w :: ys)) = _
      have h3 : latSum g (x :: x' :: (xs' ++ [w])) =
          edgeLat g x x' + latSum g (x' :: (xs' ++ [w])) := rfl
      rw [h3]
      have ih' := ih
      simp only [List.cons_append] at ih'
      rw [ih', add_assoc]

theorem latSum_snoc (g : Graph α P) (l : List String) (w v : String)
    (hlast : l.getLast? = some w) :
    latSum g (l ++ [v]) = latSum g l + edgeLat g w v := by
  induction l with
  | nil => simp at hlast
  | cons x xs ih =>
    cases xs with
    | nil =>
      simp only [List.getLast?_singleton, Option.some.injEq] at hlast
      subst hlast
      simp [latSum]
    | cons x' xs' =>
      have hlast' : (x' :: xs').getLast? = some w := by
        rw [List.getLast?_cons_cons] at hlast
        exact hlast
      have h1 : (x :: x' :: xs') ++ [v] = x :: ((x' :: xs') ++ [v]) := by simp
      rw [h1]
      show edgeLat g x x' + latSum g ((x' :: xs') ++ [v]) = _
      rw [ih hlast']
      show _ = edgeLat g x x' + latSum g (x' :: xs') + edgeLat g w v
      ring

/-! ### Priority-queue lemmas -/

def pqSorted (q : List (NodeCost α)) : Prop :=
  List.Pairwise (fun a b => a.cost ≤ b.cost) q

theorem mem_pqPush (q : List (NodeCost α)) (e x : NodeCost α) :
    x ∈ pqPush q e ↔ x ∈ q ∨ x = e := by
  induction q with
  | nil => simp [pqPush]
  | cons y ys ih =>
    by_cases hc : y.cost ≤ e.cost
    · simp [pqPush, hc, ih]
      tauto
    · simp [pqPush, hc]
      tauto

theorem length_pqPush (q : List (NodeCost α)) (e : NodeCost α) :
    (pqPush q e).length = q.length + 1 := by
  induction q with
  | nil => simp [pqPush]
  | cons y ys ih =>
    by_cases hc : y.cost ≤ e.cost
    · simp [pqPush, hc, ih]
    · simp [pqPush, hc]

theorem pqSorted_pqPush (q : List (NodeCost α)) (e : NodeCost α)
    (hs : pqSorted q) : pqSorted (pqPush q e) := by
  induction q with
  | nil => simp [pqPush, pqSorted]
  | cons y ys ih =>
    obtain ⟨hy, hys⟩ := List.pairwise_cons.mp hs
    by_cases hc : y.cost ≤ e.cost
    · rw [pqPush, if_pos hc]
      refine List.pairwise_cons.mpr ⟨?_, ih hys⟩
      intro b hb
      rcases (mem_pqPush ys e b).mp hb with hmem | heq
      · exact hy b hmem
      · rw [heq]; exact hc
    · rw [pqPush, if_neg hc]
      refine List.pairwise_cons.mpr ⟨?_, hs⟩
      intro b hb
      have hle : e.cost ≤ y.cost := le_of_lt (lt_of_not_le hc)
      rcases List.mem_cons.mp hb with heq | hmem
      · rw [heq]; exact hle
      · exact le_trans hle (hy b hmem)

theorem mem_expandEdges (h : String → α) (cur : NodeCost α) (pq : List (NodeCost α))
    (edges : List (Edge α)) (x : NodeCost α) :
    x ∈ expandEdges h cur pq edges ↔
      x ∈ pq ∨ ∃ e ∈ edges,
        x = ⟨e.dst, cur.g + e.latencyMS + h e.dst, cur.g + e.latencyMS,
          cur.path ++ [e.dst]⟩ := by
  induction edges generalizing pq with
  | nil => simp [expandEdges]
  | cons e es ih =>
    rw [expandEdges, List.foldl_cons]
    rw [show (List.foldl _ _ es : List (NodeCost α)) = expandEdges h cur (pqPush pq
      ⟨e.dst, cur.g + e.latencyMS + h e.dst, cur.g + e.latencyMS,
        cur.path ++ [e.dst]⟩) es from rfl]
    rw [ih]
    rw [mem_pqPush]
    constructor
    · rintro ((hx | hx) | ⟨e', he', hx⟩)
      · exact Or.inl hx
      · exact Or.inr ⟨e, List.mem_cons_self e es, hx⟩
      · exact Or.inr ⟨e', List.mem_cons_of_mem e he', hx⟩
    · rintro (hx | ⟨e', he', hx⟩)
      · exact Or.inl (Or.inl hx)
      · rcases List.mem_cons.mp he' with heq | hmem
        · subst heq; exact Or.inl (Or.inr hx)
        · exact Or.inr ⟨e', hmem, hx⟩

theorem length_expandEdges (h : String → α) (cur : NodeCost α)
    (pq : List (NodeCost α)) (edges : List (Edge α)) :
    (expandEdges h cur pq edges).length = pq.length + edges.length := by
  induction edges generalizing pq with
  | nil => simp [expandEdges]
  | cons e es ih =>
    rw [expandEdges, List.foldl_cons]
    rw [show (List.foldl _ _ es : List (NodeCost α)) = expandEdges h cur (pqPush pq
      ⟨e.dst, cur.g + e.latencyMS + h e.dst, cur.g + e.latencyMS,
        cur.path ++ [e.dst]⟩) es from rfl]
    rw [ih, length_pqPush]
    simp
    ring

theorem pqSorted_expandEdges (h : String → α) (cur : NodeCost α)
    (pq : List (NodeCost α)) (edges : List (Edge α)) (hs : pqSorted pq) :
    pqSorted (expandEdges h cur pq edges) := by
  induction edges generalizing pq with
  | nil => simpa [expandEdges] using hs
  | cons e es ih =>
    rw [expandEdges, List.foldl_cons]
    exact ih _ (pqSorted_pqPush _ _ hs)

theorem latSum_nonneg (g : Graph α P) (wf : WellFormed g) (l : List String)
    (hc : IsChain g l) : 0 ≤ latSum g l := by
  induction l with
  | nil => simp [latSum]
  | cons u rest ih =>
    cases rest with
    | nil => simp [latSum]
    | cons v rest2 =>
      obtain ⟨h1, h2⟩ := hc
      obtain ⟨e, he⟩ := Option.isSome_iff_exists.mp h1
      have hmem : e ∈ adjList g u := List.mem_of_find?_eq_some he
      have h0 : 0 ≤ e.latencyMS := wf.nonneg u e hmem
      have : edgeLat g u v = e.latencyMS := by simp [edgeLat, he]
      rw [latSum, this]
      have := ih h2
      linarith

/-! ## Correctness of the search loop

The search is Dijkstra with lazy deletion, generalized by a heuristic.  The single
hypothesis needed is *consistency of the heuristic with the link latencies*: for
every edge, `h u ≤ lat(u,v) + h v`.  With the all-zero heuristic this is exactly
latency nonnegativity; the graph's own straight-line heuristic satisfies it by the
triangle inequality. -/

def HeurConsistent (g : Graph α P) (h : String → α) : Prop :=
  ∀ u, ∀ e ∈ adjList g u, h u ≤ e.latencyMS + h e.dst

theorem heurConsistent_zero (g : Graph α P) (wf : WellFormed g) :
    HeurConsistent g (fun _ => 0) := by
  intro u e he
  simpa using wf.nonneg u e he

/-- Telescoping consistency along a chain: the heuristic at the head never exceeds
the chain latency plus the heuristic at the end. -/
theorem heur_le_latSum (g : Graph α P) (h : String → α)
    (hcons : HeurConsistent g h) :
    ∀ l u v, IsChain g l → l.head? = some u → l.getLast? = some v →
      h u ≤ latSum g l + h v := by
  intro l
  induction l with
  | nil => intro u v _ hu _; simp at hu
  | cons x tl ih =>
    intro u v hc hu hv
    simp only [List.head?_cons, Option.some.injEq] at hu
    have hu' : u = x := hu.symm
    subst hu'
    cases tl with
    | nil =>
      simp only [List.getLast?_singleton, Option.some.injEq] at hv
      subst hv
      simp [latSum]
    | cons y tl2 =>
      obtain ⟨h1, h2⟩ := hc
      obtain ⟨e, he⟩ := Option.isSome_iff_exists.mp h1
      have hmem : e ∈ adjList g u := List.mem_of_find?_eq_some he
      have hdst : e.dst = y := by
        have := List.find?_some he
        simpa using this
      have hstep : h u ≤ e.latencyMS + h y := by
        have := hcons u e hmem
        rwa [hdst] at this
      have hv' : (y :: tl2).getLast? = some v := by
        rw [List.getLast?_cons_cons] at hv
        exact hv
      have htail := ih y v h2 (by simp) hv'
      have hlat : latSum g (u :: y :: tl2) = e.latencyMS + latSum g (y :: tl2) := by
        have : edgeLat g u y = e.latencyMS := by simp [edgeLat, he]
        rw [latSum, this]
      rw [hlat]
      linarith

/-- Invariant of a frontier entry. -/
structure EntryOk (g : Graph α P) (s : String) (h : String → α)
    (vis : List (String × α)) (e : NodeCost α) : Prop where
  isPath : IsPathFrom g s e.id e.path
  gEq : e.g = latSum g e.path
  costEq : e.cost = e.g + h e.id
  preVis : ∀ v ∈ e.path.dropLast, (mlookup vis v).isSome = true
  preNodup : e.path.dropLast.Nodup

/-- Invariant of a visited (settled) node. -/
structure VisOk (g : Graph α P) (s v : String) (d : α) : Prop where
  exists_path : ∃ l, IsPathFrom g s v l ∧ l.Nodup ∧ latSum g l = d
  minimal : ∀ l, IsPathFrom g s v l → d ≤ latSum g l

/-- The loop invariant of `spLoop`. -/
structure SPInv (g : Graph α P) (s goal : String) (h : String → α)
    (pq : List (NodeCost α)) (vis : List (String × α)) : Prop where
  sorted : pqSorted pq
  entries : ∀ e ∈ pq, EntryOk g s h vis e
  visOk : ∀ v d, mlookup vis v = some d → VisOk g s v d
  visGoal : mlookup vis goal = none
  start : (∃ d, mlookup vis s = some d) ∨ (∃ e ∈ pq, e.id = s ∧ e.g ≤ 0)
  frontier : ∀ v d, mlookup vis v = some d → ∀ e ∈ adjList g v,
    mlookup vis e.dst = none → ∃ en ∈ pq, en.id = e.dst ∧ en.g ≤ d + e.latencyMS

theorem isPathFrom_singleton (g : Graph α P) (s : String) :
    IsPathFrom g s s [s] := by
  refine ⟨rfl, rfl, ?_⟩
  trivial

theorem isPathFrom_snoc (g : Graph α P) (s w v : String) (l : List String)
    (hp : IsPathFrom g s w l) (he : StepRel g w v) :
    IsPathFrom g s v (l ++ [v]) := by
  obtain ⟨hh, hl, hc⟩ := hp
  refine ⟨?_, ?_, isChain_snoc g l w v hc hl he⟩
  · cases l with
    | nil => simp at hh
    | cons x xs => simpa using hh
  · simp

/-- Every path from a settled node to an unsettled one is covered by a frontier
entry whose estimated total does not exceed the path's. -/
theorem frontier_path (g : Graph α P) (s goal : String) (h : String → α)
    (pq : List (NodeCost α)) (vis : List (String × α))
    (inv : SPInv g s goal h pq vis) (hcons : HeurConsistent g h) :
    ∀ l w v d, IsChain g l → l.head? = some w → l.getLast? = some v →
      mlookup vis w = some d → mlookup vis v = none →
      ∃ en ∈ pq, en.g + h en.id ≤ d + latSum g l + h v := by
  intro l
  induction l with
  | nil => intro w v d _ hw _ _ _; simp at hw
  | cons x tl ih =>
    intro w v d hc hw hv hdw hvnone
    simp only [List.head?_cons, Option.some.injEq] at hw
    have hw' : w = x := hw.symm
    subst hw'
    cases tl with
    | nil =>
      simp only [List.getLast?_singleton, Option.some.injEq] at hv
      subst hv
      rw [hdw] at hvnone
      cases hvnone
    | cons y tl2 =>
      obtain ⟨h1, h2⟩ := hc
      obtain ⟨e, he⟩ := Option.isSome_iff_exists.mp h1
      have hmem : e ∈ adjList g w := List.mem_of_find?_eq_some he
      have hdst : e.dst = y := by
        have := List.find?_some he
        simpa using this
      have hv' : (y :: tl2).getLast? = some v := by
        rw [List.getLast?_cons_cons] at hv
        exact hv
      have hlat : latSum g (w :: y :: tl2) = e.latencyMS + latSum g (y :: tl2) := by
        have helat : edgeLat g w y = e.latencyMS := by simp [edgeLat, he]
        rw [latSum, helat]
      cases hy : mlookup vis y with
      | none =>
        obtain ⟨en, henmem, henid, heng⟩ := inv.frontier w d hdw e hmem (by rwa [hdst])
        refine ⟨en, henmem, ?_⟩
        have htel : h y ≤ latSum g (y :: tl2) + h v :=
          heur_le_latSum g h hcons (y :: tl2) y v h2 (by simp) hv'
        rw [henid, hdst]
        rw [hlat]
        linarith
      | some dy =>
        have hvisy := inv.visOk y dy hy
        have hdy : dy ≤ d + e.latencyMS := by
          obtain ⟨lw, hlw, _, hlwsum⟩ := (inv.visOk w d hdw).exists_path
          have hpy : IsPathFrom g s y (lw ++ [y]) := by
            refine isPathFrom_snoc g s w y lw hlw ?_
            rw [StepRel]
            have : findEdge g w y = some e := he
            rw [this]
            rfl
          have := hvisy.minimal (lw ++ [y]) hpy
          have hsnoc : latSum g (lw ++ [y]) = latSum g lw + edgeLat g w y :=
            latSum_snoc g lw w y hlw.2.1
          have helat : edgeLat g w y = e.latencyMS := by simp [edgeLat, he]
          rw [hsnoc, helat, hlwsum] at this
          exact this
        obtain ⟨en, henmem, hen⟩ := ih y v dy h2 (by simp) hv' hy hvnone
        refine ⟨en, henmem, ?_⟩
        rw [hlat]
        linarith

/-- Every path from the start to an unsettled node is covered by a frontier entry. -/
theorem cover (g : Graph α P) (s goal : String) (h : String → α)
    (pq : List (NodeCost α)) (vis : List (String × α))
    (inv : SPInv g s goal h pq vis) (hcons : HeurConsistent g h) :
    ∀ l v, IsPathFrom g s v l → mlookup vis v = none →
      ∃ en ∈ pq, en.g + h en.id ≤ latSum g l + h v := by
  intro l v hp hvnone
  obtain ⟨hh, hl, hc⟩ := hp
  cases hs : mlookup vis s with
  | none =>
    rcases inv.start with ⟨d, hd⟩ | ⟨e, hemem, heid, heg⟩
    · rw [hs] at hd; cases hd
    · refine ⟨e, hemem, ?_⟩
      have htel : h s ≤ latSum g l + h v := heur_le_latSum g h hcons l s v hc hh hl
      rw [heid]
      linarith
  | some d =>
    have hd0 : d ≤ 0 := by
      have := (inv.visOk s d hs).minimal [s] (isPathFrom_singleton g s)
      simpa [latSum] using this
    obtain ⟨en, henmem, hen⟩ :=
      frontier_path g s goal h pq vis inv hcons l s v d hc hh hl hs hvnone
    refine ⟨en, henmem, ?_⟩
    linarith

/-- When an unsettled entry is popped from the sorted queue, its accumulated
latency is minimal among all paths from the start to its node. -/
theorem popped_minimal (g : Graph α P) (s goal : String) (h : String → α)
    (cur : NodeCost α) (rest : List (NodeCost α)) (vis : List (String × α))
    (inv : SPInv g s goal h (cur :: rest) vis) (hcons : HeurConsistent g h)
    (hunvis : mlookup vis cur.id = none) :
    ∀ l, IsPathFrom g s cur.id l → cur.g ≤ latSum g l := by
  intro l hp
  obtain ⟨en, henmem, hen⟩ :=
    cover g s goal h (cur :: rest) vis inv hcons l cur.id hp hunvis
  have hcur := inv.entries cur (List.mem_cons_self cur rest)
  have hencost := (inv.entries en henmem).costEq
  rcases List.mem_cons.mp henmem with heq | hmem
  · subst heq
    linarith
  · have hle : cur.cost ≤ en.cost := by
      have := List.pairwise_cons.mp inv.sorted
      exact this.1 en hmem
    rw [hcur.costEq, hencost] at hle
    linarith

theorem skipCond_eq_true (vis : List (String × α)) (cur : NodeCost α) :
    skipCond vis cur = true ↔
      ∃ prev, mlookup vis cur.id = some prev ∧ prev ≤ cur.g := by
  unfold skipCond
  cases hl : mlookup vis cur.id with
  | none => simp
  | some prev => simp

/-- If the popped entry is not skipped, its node is in fact unvisited: a visited
node's stored distance is minimal, hence at most the entry's accumulated latency,
which would have triggered the skip. -/
theorem not_skip_unvisited (g : Graph α P) (s goal : String) (h : String → α)
    (cur : NodeCost α) (rest : List (NodeCost α)) (vis : List (String × α))
    (inv : SPInv g s goal h (cur :: rest) vis)
    (hns : ¬ skipCond vis cur = true) : mlookup vis cur.id = none := by
  cases hl : mlookup vis cur.id with
  | none => rfl
  | some prev =>
    exfalso
    apply hns
    rw [skipCond_eq_true]
    refine ⟨prev, hl, ?_⟩
    have hmin := (inv.visOk cur.id prev hl).minimal cur.path
      (inv.entries cur (List.mem_cons_self cur rest)).isPath
    rw [← (inv.entries cur (List.mem_cons_self cur rest)).gEq] at hmin
    exact hmin

/-- A popped, unvisited entry's path is loopless: all its earlier nodes are
visited and pairwise distinct, and its last node is unvisited. -/
theorem popped_nodup (g : Graph α P) (s : String) (h : String → α)
    (vis : List (String × α)) (cur : NodeCost α)
    (eok : EntryOk g s h vis cur) (hunvis : mlookup vis cur.id = none) :
    cur.path.Nodup := by
  have hne : cur.path ≠ [] := by
    intro hemp
    have := eok.isPath.1
    rw [hemp] at this
    cases this
  have hlast : cur.path.getLast hne = cur.id := by
    have h1 := eok.isPath.2.1
    rw [List.getLast?_eq_getLast cur.path hne] at h1
    exact (Option.some.injEq _ _).mp h1
  have hdecomp : cur.path.dropLast ++ [cur.id] = cur.path := by
    rw [← hlast]
    exact List.dropLast_append_getLast hne
  have hnotin : cur.id ∉ cur.path.dropLast := by
    intro hin
    have := eok.preVis cur.id hin
    rw [hunvis] at this
    cases this
  rw [← hdecomp]
  rw [List.nodup_append]
  refine ⟨eok.preNodup, List.nodup_singleton _, ?_⟩
  intro a ha hb
  simp only [List.mem_singleton] at hb
  subst hb
  exact hnotin ha

theorem mlookup_minsert_isSome {V : Type} (m : List (String × V)) (k x : String)
    (v : V) (hx : (mlookup m x).isSome = true) :
    (mlookup (minsert m k v) x).isSome = true := by
  by_cases hxk : x = k
  · subst hxk; rw [mlookup_minsert_self]; rfl
  · rw [mlookup_minsert_ne m k x v hxk]; exact hx

theorem mlookup_none_of_minsert_none {V : Type} (m : List (String × V))
    (k x : String) (v : V) (hx : mlookup (minsert m k v) x = none) :
    mlookup m x = none := by
  by_cases hxk : x = k
  · subst hxk; rw [mlookup_minsert_self] at hx; cases hx
  · rwa [mlookup_minsert_ne m k x v hxk] at hx

/-- Skipping a stale entry preserves the invariant. -/
theorem spInv_skip (g : Graph α P) (s goal : String) (h : String → α)
    (cur : NodeCost α) (rest : List (NodeCost α)) (vis : List (String × α))
    (inv : SPInv g s goal h (cur :: rest) vis)
    (hskip : skipCond vis cur = true) : SPInv g s goal h rest vis := by
  obtain ⟨prev, hprev, _⟩ := (skipCond_eq_true vis cur).mp hskip
  refine ⟨List.Pairwise.of_cons inv.sorted,
    fun e he => inv.entries e (List.mem_cons_of_mem cur he),
    inv.visOk, inv.visGoal, ?_, ?_⟩
  · rcases inv.start with h1 | ⟨e, hemem, heid, heg⟩
    · exact Or.inl h1
    · rcases List.mem_cons.mp hemem with heq | hmem
      · subst heq
        exact Or.inl ⟨prev, by rwa [heid] at hprev⟩
      · exact Or.inr ⟨e, hmem, heid, heg⟩
  · intro v d hd e he hdst
    obtain ⟨en, henmem, henid, heng⟩ := inv.frontier v d hd e he hdst
    rcases List.mem_cons.mp henmem with heq | hmem
    · subst heq
      rw [henid] at hprev
      rw [hdst] at hprev
      cases hprev
    · exact ⟨en, hmem, henid, heng⟩

theorem findEdge_isSome_of_mem (g : Graph α P) (u : String) (e : Edge α)
    (he : e ∈ adjList g u) : (findEdge g u e.dst).isSome = true := by
  rw [findEdge, List.find?_isSome]
  exact ⟨e, he, by simp⟩

theorem findEdge_eq_of_mem (g : Graph α P) (wf : WellFormed g) (u : String)
    (e : Edge α) (he : e ∈ adjList g u) : findEdge g u e.dst = some e := by
  obtain ⟨e', he'⟩ := Option.isSome_iff_exists.mp (findEdge_isSome_of_mem g u e he)
  have hmem' : e' ∈ adjList g u := List.mem_of_find?_eq_some he'
  have hdst' : e'.dst = e.dst := by
    have := List.find?_some he'
    simpa using this
  have hinj := List.inj_on_of_nodup_map (wf.noPar u)
  have : e' = e := hinj hmem' he hdst'
  rw [he', this]

/-- Processing an unvisited, non-goal entry preserves the invariant. -/
theorem spInv_process (g : Graph α P) (s goal : String) (h : String → α)
    (cur : NodeCost α) (rest : List (NodeCost α)) (vis : List (String × α))
    (wf : WellFormed g) (hcons : HeurConsistent g h)
    (inv : SPInv g s goal h (cur :: rest) vis)
    (hunvis : mlookup vis cur.id = none) (hng : ¬ cur.id = goal) :
    SPInv g s goal h (expandEdges h cur rest (adjList g cur.id))
      (minsert vis cur.id cur.g) := by
  have hcurok := inv.entries cur (List.mem_cons_self cur rest)
  have hcurnodup : cur.path.Nodup := popped_nodup g s h vis cur hcurok hunvis
  have hmin := popped_minimal g s goal h cur rest vis inv hcons hunvis
  have hrest : ∀ e ∈ rest, EntryOk g s h vis e :=
    fun e he => inv.entries e (List.mem_cons_of_mem cur he)
  refine ⟨?_, ?_, ?_, ?_, ?_, ?_⟩
  · exact pqSorted_expandEdges h cur rest _ (List.Pairwise.of_cons inv.sorted)
  · intro x hx
    rcases (mem_expandEdges h cur rest _ x).mp hx with hmem | ⟨e, hemem, hxeq⟩
    · obtain ⟨p1, p2, p3, p4, p5⟩ := hrest x hmem
      exact ⟨p1, p2, p3, fun v hv => mlookup_minsert_isSome vis cur.id v cur.g (p4 v hv), p5⟩
    · subst hxeq
      have hstep : StepRel g cur.id e.dst := by
        rw [StepRel]
        exact findEdge_isSome_of_mem g cur.id e hemem
      have hfe : findEdge g cur.id e.dst = some e := findEdge_eq_of_mem g wf cur.id e hemem
      refine ⟨?_, ?_, ?_, ?_, ?_⟩
      · exact isPathFrom_snoc g s cur.id e.dst cur.path hcurok.isPath hstep
      · show cur.g + e.latencyMS = latSum g (cur.path ++ [e.dst])
        rw [latSum_snoc g cur.path cur.id e.dst hcurok.isPath.2.1]
        rw [hcurok.gEq]
        have : edgeLat g cur.id e.dst = e.latencyMS := by simp [edgeLat, hfe]
        rw [this]
      · rfl
      · intro v hv
        rw [show (cur.path ++ [e.dst]).dropLast = cur.path from List.dropLast_concat] at hv
        have hdecomp : cur.path.dropLast ++ [cur.id] = cur.path := by
          have hne : cur.path ≠ [] := by
            intro hemp
            have := hcurok.isPath.1
            rw [hemp] at this
            cases this
          have hlast : cur.path.getLast hne = cur.id := by
            have h1 := hcurok.isPath.2.1
            rw [List.getLast?_eq_getLast cur.path hne] at h1
            exact (Option.some.injEq _ _).mp h1
          rw [← hlast]
          exact List.dropLast_append_getLast hne
        rw [← hdecomp] at hv
        rcases List.mem_append.mp hv with hv1 | hv2
        · exact mlookup_minsert_isSome vis cur.id v cur.g (hcurok.preVis v hv1)
        · simp only [List.mem_singleton] at hv2
          subst hv2
          rw [mlookup_minsert_self]
          rfl
      · rw [show (cur.path ++ [e.dst]).dropLast = cur.path from List.dropLast_concat]
        exact hcurnodup
  · intro v d hd
    by_cases hveq : v = cur.id
    · subst hveq
      rw [mlookup_minsert_self] at hd
      cases hd
      refine ⟨⟨cur.path, hcurok.isPath, hcurnodup, hcurok.gEq.symm⟩, ?_⟩
      intro l hl
      exact hmin l hl
    · rw [mlookup_minsert_ne vis cur.id v cur.g hveq] at hd
      exact inv.visOk v d hd
  · rw [mlookup_minsert_ne vis cur.id goal cur.g (fun hg => hng hg.symm)]
    exact inv.visGoal
  · rcases inv.start with ⟨d, hd⟩ | ⟨e, hemem, heid, heg⟩
    · by_cases hseq : s = cur.id
      · subst hseq
        rw [hd] at hunvis
        cases hunvis
      · exact Or.inl ⟨d, by rwa [mlookup_minsert_ne vis cur.id s cur.g hseq]⟩
    · rcases List.mem_cons.mp hemem with heq | hmem
      · subst heq
        refine Or.inl ⟨e.g, ?_⟩
        rw [← heid, mlookup_minsert_self]
      · exact Or.inr ⟨e, (mem_expandEdges h cur rest _ e).mpr (Or.inl hmem), heid, heg⟩
  · intro v d hd e2 he2 hdst
    have hdstne : e2.dst ≠ cur.id := by
      intro hdeq
      rw [hdeq, mlookup_minsert_self] at hdst
      cases hdst
    have hdst' : mlookup vis e2.dst = none := by
      rwa [mlookup_minsert_ne vis cur.id e2.dst cur.g hdstne] at hdst
    by_cases hveq : v = cur.id
    · subst hveq
      rw [mlookup_minsert_self] at hd
      cases hd
      refine ⟨⟨e2.dst, cur.g + e2.latencyMS + h e2.dst, cur.g + e2.latencyMS,
        cur.path ++ [e2.dst]⟩, ?_, rfl, le_refl _⟩
      exact (mem_expandEdges h cur rest _ _).mpr (Or.inr ⟨e2, he2, rfl⟩)
    · rw [mlookup_minsert_ne vis cur.id v cur.g hveq] at hd
      obtain ⟨en, henmem, henid, heng⟩ := inv.frontier v d hd e2 he2 hdst'
      rcases List.mem_cons.mp henmem with heq | hmem
      · subst heq
        rw [henid] at hdstne
        exact absurd rfl hdstne
      · exact ⟨en, (mem_expandEdges h cur rest _ en).mpr (Or.inl hmem), henid, heng⟩

/-! ### The termination measure -/

def unvisDeg (g : Graph α P) (vis : List (String × α)) : Nat :=
  ((g.adj.filter (fun kv => mlookup vis kv.1 = none)).map
    (fun kv => kv.2.length)).sum

theorem sumUnvis_mono {E : Type} (L : List (String × List E))
    (vis : List (String × α)) (key : String) (d : α) :
    ((L.filter (fun kv => mlookup (minsert vis key d) kv.1 = none)).map
      (fun kv => kv.2.length)).sum ≤
    ((L.filter (fun kv => mlookup vis kv.1 = none)).map
      (fun kv => kv.2.length)).sum := by
  induction L with
  | nil => simp
  | cons kv rest ih =>
    by_cases hc : mlookup (minsert vis key d) kv.1 = none
    · have hc0 : mlookup vis kv.1 = none :=
        mlookup_none_of_minsert_none vis key kv.1 d hc
      simp [List.filter_cons, hc, hc0]
      omega
    · by_cases hc0 : mlookup vis kv.1 = none
      · simp [List.filter_cons, hc, hc0]
        omega
      · simp [List.filter_cons, hc, hc0]
        exact ih

theorem sumUnvis_minsert {E : Type} (L : List (String × List E))
    (vis : List (String × α)) (key : String) (d : α)
    (hkey : mlookup vis key = none) :
    ((L.filter (fun kv => mlookup (minsert vis key d) kv.1 = none)).map
      (fun kv => kv.2.length)).sum + ((mlookup L key).getD []).length ≤
    ((L.filter (fun kv => mlookup vis kv.1 = none)).map
      (fun kv => kv.2.length)).sum := by
  induction L with
  | nil => simp [mlookup]
  | cons kv rest ih =>
    obtain ⟨k, es⟩ := kv
    by_cases hkk : k = key
    · subst hkk
      have hc : ¬ mlookup (minsert vis k d) k = none := by
        rw [mlookup_minsert_self]; intro hx; cases hx
      simp [List.filter_cons, hc, hkey, mlookup]
      have := sumUnvis_mono rest vis k d
      omega
    · have hlk : mlookup ((k, es) :: rest) key = mlookup rest key := by
        simp [mlookup, hkk]
      rw [hlk]
      have hck : mlookup (minsert vis key d) k = mlookup vis k :=
        mlookup_minsert_ne vis key k d hkk
      by_cases hc0 : mlookup vis k = none
      · simp [List.filter_cons, hck, hc0]
        omega
      · simp [List.filter_cons, hck, hc0]
        exact ih

theorem unvisDeg_minsert (g : Graph α P) (vis : List (String × α)) (key : String)
    (d : α) (hkey : mlookup vis key = none) :
    unvisDeg g (minsert vis key d) + (adjList g key).length ≤ unvisDeg g vis := by
  have := sumUnvis_minsert g.adj vis key d hkey
  simpa [unvisDeg, adjList] using this

theorem unvisDeg_le_totalDeg (g : Graph α P) (vis : List (String × α)) :
    unvisDeg g vis ≤ totalDeg g := by
  rw [unvisDeg, totalDeg]
  induction g.adj with
  | nil => simp
  | cons kv rest ih =>
    by_cases hc : mlookup vis kv.1 = none
    · simp [List.filter_cons, hc]
      omega
    · simp [List.filter_cons, hc]
      omega

/-! ### The main correctness theorem for the search loop -/

/-- What `ShortestPath` guarantees about a returned path. -/
def OkSpec (g : Graph α P) (s goal : String) (p : PathR α) : Prop :=
  IsPathFrom g s goal p.nodes ∧ p.nodes.Nodup ∧
  p.latencyMS = latSum g p.nodes ∧ p.bottleneck = botMin g p.nodes ∧
  ∀ l, IsPathFrom g s goal l → p.latencyMS ≤ latSum g l

theorem spLoop_correct (g : Graph α P) (s goal : String) (h : String → α)
    (wf : WellFormed g) (hcons : HeurConsistent g h) :
    ∀ fuel pq vis, SPInv g s goal h pq vis →
      pq.length + unvisDeg g vis < fuel →
      (∃ p, spLoop g goal h fuel pq vis = .ok p ∧ OkSpec g s goal p) ∨
      (spLoop g goal h fuel pq vis = .error .noRoute ∧
        ∀ l, ¬ IsPathFrom g s goal l) := by
  intro fuel
  induction fuel with
  | zero => intro pq vis _ hm; omega
  | succ n ih =>
    intro pq vis inv hm
    cases pq with
    | nil =>
      right
      refine ⟨rfl, ?_⟩
      intro l hl
      obtain ⟨en, henmem, _⟩ :=
        cover g s goal h [] vis inv hcons l goal hl inv.visGoal
      cases henmem
    | cons cur rest =>
      by_cases hskip : skipCond vis cur = true
      · rw [spLoop, if_pos hskip]
        apply ih rest vis (spInv_skip g s goal h cur rest vis inv hskip)
        simp only [List.length_cons] at hm
        omega
      · have hunvis := not_skip_unvisited g s goal h cur rest vis inv hskip
        rw [spLoop, if_neg hskip]
        by_cases hgoal : cur.id = goal
        · rw [if_pos hgoal]
          have hcurok := inv.entries cur (List.mem_cons_self cur rest)
          have hchain : IsChain g cur.path := hcurok.isPath.2.2
          rw [computePathMetrics_eq_of_chain g cur.path hchain]
          left
          refine ⟨⟨cur.path, latSum g cur.path, botMin g cur.path⟩, rfl, ?_, ?_, rfl, rfl, ?_⟩
          · have := hcurok.isPath
            rwa [hgoal] at this
          · exact popped_nodup g s h vis cur hcurok hunvis
          · intro l hl
            have := popped_minimal g s goal h cur rest vis inv hcons hunvis l
              (by rwa [← hgoal] at hl)
            rw [hcurok.gEq] at this
            exact this
        · rw [if_neg hgoal]
          apply ih _ _ (spInv_process g s goal h cur rest vis wf hcons inv hunvis hgoal)
          rw [length_expandEdges]
          have hdec := unvisDeg_minsert g vis cur.id cur.g hunvis
          simp only [List.length_cons] at hm
          omega

theorem ShortestPath_unknownStart (g : Graph α P) (s goal : String)
    (h : String → α) (hs : ¬ hasNode g s = true) :
    ShortestPath g s goal h = .error (.unknownStart s) := by
  rw [ShortestPath, if_pos hs]

theorem ShortestPath_unknownGoal (g : Graph α P) (s goal : String)
    (h : String → α) (hs : hasNode g s = true) (hg : ¬ hasNode g goal = true) :
    ShortestPath g s goal h = .error (.unknownGoal goal) := by
  rw [ShortestPath, if_neg (by simpa using hs), if_pos hg]

/-- Main specification of `ShortestPath` for well-formed graphs and consistent
heuristics: either it returns a loopless minimum-latency path with metrics
replayed from the graph, or there is no path and it reports "no route". -/
theorem ShortestPath_spec (g : Graph α P) (s goal : String) (h : String → α)
    (wf : WellFormed g) (hcons : HeurConsistent g h)
    (hs : hasNode g s = true) (hg : hasNode g goal = true) :
    (∃ p, ShortestPath g s goal h = .ok p ∧ OkSpec g s goal p) ∨
    (ShortestPath g s goal h = .error .noRoute ∧
      ∀ l, ¬ IsPathFrom g s goal l) := by
  rw [ShortestPath, if_neg (by simpa using hs), if_neg (by simpa using hg)]
  apply spLoop_correct g s goal h wf hcons
  · refine ⟨?_, ?_, ?_, ?_, ?_, ?_⟩
    · exact List.pairwise_singleton _ _
    · intro e he
      simp only [List.mem_singleton] at he
      subst he
      refine ⟨isPathFrom_singleton g s, by simp [latSum], by simp, ?_, ?_⟩
      · intro v hv; simp at hv
      · simp
    · intro v d hd; cases hd
    · rfl
    · exact Or.inr ⟨⟨s, h s, 0, [s]⟩, List.mem_singleton_self _, rfl, le_refl 0⟩
    · intro v d hd; cases hd
  · have := unvisDeg_le_totalDeg g ([] : List (String × α))
    rw [fuelFor]
    simp only [List.length_singleton]
    omega

/-- Decidable well-formedness check (quantified over the adjacency entries rather
than over all strings, so concrete witnesses can be discharged by `decide`). -/
def WellFormedB (g : Graph α P) : Bool :=
  g.adj.all (fun kv =>
    kv.2.all (fun e =>
      decide (0 ≤ e.latencyMS) && hasNode g kv.1 && hasNode g e.dst &&
        (e.src == kv.1)) &&
    decide (kv.2.map Edge.dst).Nodup)

theorem mlookup_mem {V : Type} (m : List (String × V)) (k : String) (v : V)
    (hl : mlookup m k = some v) : (k, v) ∈ m := by
  induction m with
  | nil => cases hl
  | cons kv rest ih =>
    obtain ⟨k', v'⟩ := kv
    rw [mlookup] at hl
    by_cases hk : k' = k
    · rw [if_pos hk] at hl
      cases hl
      subst hk
      exact List.mem_cons_self _ _
    · rw [if_neg hk] at hl
      exact List.mem_cons_of_mem _ (ih hl)

theorem mem_adjList_entry (g : Graph α P) (u : String) (e : Edge α)
    (he : e ∈ adjList g u) : ∃ kv ∈ g.adj, kv.1 = u ∧ e ∈ kv.2 := by
  rw [adjList] at he
  cases hl : mlookup g.adj u with
  | none => rw [hl] at he; cases he
  | some es =>
    rw [hl] at he
    simp only [Option.getD_some] at he
    exact ⟨(u, es), mlookup_mem g.adj u es hl, rfl, he⟩

theorem adjList_eq_of_entry (g : Graph α P) (u : String) (es : List (Edge α))
    (hfirst : mlookup g.adj u = some es) : adjList g u = es := by
  rw [adjList, hfirst]
  rfl

theorem wellFormed_of_b (g : Graph α P) (hb : WellFormedB g = true) :
    WellFormed g := by
  rw [WellFormedB, List.all_eq_true] at hb
  have hmem : ∀ u, ∀ e ∈ adjList g u,
      (0 ≤ e.latencyMS) ∧ hasNode g u = true ∧ hasNode g e.dst = true ∧ e.src = u := by
    intro u e he
    obtain ⟨kv, hkv, hk1, hk2⟩ := mem_adjList_entry g u e he
    have := hb kv hkv
    rw [Bool.and_eq_true, List.all_eq_true] at this
    have h1 := this.1 e hk2
    simp only [Bool.and_eq_true, decide_eq_true_eq, beq_iff_eq] at h1
    exact ⟨h1.1.1.1, by rw [← hk1]; exact h1.1.1.2, h1.1.2, by rw [← hk1]; exact h1.2⟩
  refine ⟨fun u e he => (hmem u e he).1,
    fun u e he => ⟨(hmem u e he).2.1, (hmem u e he).2.2.1⟩,
    fun u e he => (hmem u e he).2.2.2, ?_⟩
  intro u
  cases hl : mlookup g.adj u with
  | none =>
    rw [adjList, hl]
    simp
  | some es =>
    rw [adjList_eq_of_entry g u es hl]
    have hmem2 : ((u, es) : String × List (Edge α)) ∈ g.adj := mlookup_mem g.adj u es hl
    have := hb (u, es) hmem2
    rw [Bool.and_eq_true] at this
    exact of_decide_eq_true this.2


/-! ## The graph builder (`BuildGraph` in `backend/routing/graph.go`)

`BuildGraph` consumes the `visibility` package through three functions: the slant
range and the two visibility predicates.  They are bundled in a context so the
builder itself stays generic; `realGeo` below instantiates the bundle with the
exact real-number formulas of the source. -/

structure GeoCtx (α P : Type) where
  slantRange : P → P → α
  satToSat : P → P → Bool
  groundToSat : P → P → α → Bool

section GraphBuilder

variable {α : Type} [LinearOrderedField α] {P : Type}

/-- `routing.SpeedOfLightKMPerS = 299792.458`. -/
def SpeedOfLightKMPerS : α := 299792458 / 1000

/-- The builder's only failure: "node ID cannot be empty". -/
inductive BuildErr
  | emptyNodeID
deriving DecidableEq, Repr

/-- The `addEdge` closure: latency from slant range, throughput `1/(1+latency)`,
appended to the from-node's adjacency slice. -/
def addEdge (ctx : GeoCtx α P) (g : Graph α P) (a b : GNode P) : Graph α P :=
  let dist := ctx.slantRange a.pos b.pos
  let latency := dist / SpeedOfLightKMPerS * 1000
  let throughput := 1 / (1 + latency)
  { g with
    adj := minsert g.adj a.id
      ((mlookup g.adj a.id).getD [] ++ [⟨a.id, b.id, latency, throughput⟩]) }

/-- The type-dependent visibility switch for one ordered pair `(a, b)` of the node
slice (`i < j`): satellite/satellite, ground/satellite in either order (the ground
node is always the observer), and ground/ground is skipped. -/
def pairStep (ctx : GeoCtx α P) (mask : α) (g : Graph α P) (a b : GNode P) :
    Graph α P :=
  match a.ntype, b.ntype with
  | .satellite, .satellite =>
    if ctx.satToSat a.pos b.pos then addEdge ctx (addEdge ctx g a b) b a else g
  | .ground, .satellite =>
    if ctx.groundToSat a.pos b.pos mask then addEdge ctx (addEdge ctx g a b) b a
    else g
  | .satellite, .ground =>
    if ctx.groundToSat b.pos a.pos mask then addEdge ctx (addEdge ctx g a b) b a
    else g
  | .ground, .ground => g

/-- The double loop `for i; for j := i+1` over unordered node pairs. -/
def pairsFold (ctx : GeoCtx α P) (mask : α) : List (GNode P) → Graph α P → Graph α P
  | [], g0 => g0
  | a :: rest, g0 =>
    pairsFold ctx mask rest (rest.foldl (fun g b => pairStep ctx mask g a b) g0)

/-- The node-insertion loop: reject an empty identity, otherwise assign into the
node map (later duplicates silently overwrite, as Go map assignment does). -/
def buildNodesMap : List (GNode P) → List (String × GNode P) →
    Option (List (String × GNode P))
  | [], acc => some acc
  | n :: rest, acc =>
    if n.id = "" then none else buildNodesMap rest (minsert acc n.id n)

/-- `routing.BuildGraph`. -/
def BuildGraph (ctx : GeoCtx α P) (nodes : List (GNode P)) (mask : α) :
    Except BuildErr (Graph α P) :=
  match buildNodesMap nodes [] with
  | none => .error .emptyNodeID
  | some m => .ok (pairsFold ctx mask nodes { nodes := m, adj := [] })

/-- `Graph.Heuristic`: straight-line latency estimate, zero when either node is
unknown. -/
def Heuristic (ctx : GeoCtx α P) (g : Graph α P) (u v : String) : α :=
  match mlookup g.nodes u, mlookup g.nodes v with
  | some src, some dst => ctx.slantRange src.pos dst.pos / SpeedOfLightKMPerS * 1000
  | _, _ => 0

/-! ### Structural facts about `BuildGraph` -/

/-- Hypotheses on a geometry bundle used by the metric facts: slant range is
nonnegative, zero on equal positions, symmetric, and satisfies the triangle
inequality.  The real Euclidean geometry satisfies all of them. -/
structure GeoOk (ctx : GeoCtx α P) : Prop where
  sr_nonneg : ∀ p q, 0 ≤ ctx.slantRange p q
  sr_triangle : ∀ p q r, ctx.slantRange p r ≤ ctx.slantRange p q + ctx.slantRange q r

/-- The edge record `addEdge` creates for the ordered pair `(a, b)`. -/
def mkEdgeRec (ctx : GeoCtx α P) (a b : GNode P) : Edge α :=
  ⟨a.id, b.id, ctx.slantRange a.pos b.pos / SpeedOfLightKMPerS * 1000,
    1 / (1 + ctx.slantRange a.pos b.pos / SpeedOfLightKMPerS * 1000)⟩

theorem addEdge_adjList (ctx : GeoCtx α P) (g : Graph α P) (a b : GNode P)
    (u : String) :
    adjList (addEdge ctx g a b) u =
      if u = a.id then adjList g a.id ++ [mkEdgeRec ctx a b] else adjList g u := by
  by_cases hu : u = a.id
  · rw [if_pos hu, hu]
    simp only [adjList, addEdge, mlookup_minsert_self]
    rfl
  · rw [if_neg hu]
    simp only [adjList, addEdge]
    rw [mlookup_minsert_ne g.adj a.id u _ hu]

theorem addEdge_nodes (ctx : GeoCtx α P) (g : Graph α P) (a b : GNode P) :
    (addEdge ctx g a b).nodes = g.nodes := rfl

/-- Edges produced by `pairStep` on top of `g` for a pair drawn from `nodes`. -/
def EdgesOk (ctx : GeoCtx α P) (nodes : List (GNode P)) (g : Graph α P) : Prop :=
  ∀ u, ∀ e ∈ adjList g u, ∃ a b, a ∈ nodes ∧ b ∈ nodes ∧
    ¬(a.ntype = NodeType.ground ∧ b.ntype = NodeType.ground) ∧
    e = mkEdgeRec ctx a b ∧ u = a.id

theorem edgesOk_addEdge (ctx : GeoCtx α P) (nodes : List (GNode P))
    (g : Graph α P) (a b : GNode P) (ha : a ∈ nodes) (hb : b ∈ nodes)
    (hng : ¬(a.ntype = NodeType.ground ∧ b.ntype = NodeType.ground))
    (hok : EdgesOk ctx nodes g) : EdgesOk ctx nodes (addEdge ctx g a b) := by
  intro u e he
  rw [addEdge_adjList] at he
  by_cases hu : u = a.id
  · rw [if_pos hu] at he
    rcases List.mem_append.mp he with h1 | h2
    · exact hok a.id e h1 |>.imp fun a' hx => hx.imp fun b' hy =>
        ⟨hy.1, hy.2.1, hy.2.2.1, hy.2.2.2.1, by rw [hu, hy.2.2.2.2]⟩
    · simp only [List.mem_singleton] at h2
      exact ⟨a, b, ha, hb, hng, h2, hu⟩
  · rw [if_neg hu] at he
    exact hok u e he

theorem edgesOk_pairStep (ctx : GeoCtx α P) (mask : α) (nodes : List (GNode P))
    (g : Graph α P) (a b : GNode P) (ha : a ∈ nodes) (hb : b ∈ nodes)
    (hok : EdgesOk ctx nodes g) : EdgesOk ctx nodes (pairStep ctx mask g a b) := by
  rw [pairStep]
  cases hta : a.ntype <;> cases htb : b.ntype
  · by_cases hv : ctx.satToSat a.pos b.pos = true
    · rw [if_pos hv]
      refine edgesOk_addEdge ctx nodes _ b a hb ha ?_
        (edgesOk_addEdge ctx nodes g a b ha hb ?_ hok)
      · rw [hta, htb]; intro hx; cases hx.2
      · rw [hta, htb]; intro hx; cases hx.1
    · rw [if_neg hv]; exact hok
  · by_cases hv : ctx.groundToSat b.pos a.pos mask = true
    · rw [if_pos hv]
      refine edgesOk_addEdge ctx nodes _ b a hb ha ?_
        (edgesOk_addEdge ctx nodes g a b ha hb ?_ hok)
      · rw [hta, htb]; intro hx; cases hx.2
      · rw [hta, htb]; intro hx; cases hx.1
    · rw [if_neg hv]; exact hok
  · by_cases hv : ctx.groundToSat a.pos b.pos mask = true
    · rw [if_pos hv]
      refine edgesOk_addEdge ctx nodes _ b a hb ha ?_
        (edgesOk_addEdge ctx nodes g a b ha hb ?_ hok)
      · rw [hta, htb]; intro hx; cases hx.1
      · rw [hta, htb]; intro hx; cases hx.2
    · rw [if_neg hv]; exact hok
  · exact hok

theorem edgesOk_innerFold (ctx : GeoCtx α P) (mask : α) (nodes : List (GNode P))
    (a : GNode P) (ha : a ∈ nodes) :
    ∀ (bs : List (GNode P)), (∀ b ∈ bs, b ∈ nodes) → ∀ (g : Graph α P),
      EdgesOk ctx nodes g →
      EdgesOk ctx nodes (bs.foldl (fun g' b => pairStep ctx mask g' a b) g) := by
  intro bs
  induction bs with
  | nil => intro _ g hok; exact hok
  | cons b bs' ih =>
    intro hbs g hok
    rw [List.foldl_cons]
    exact ih (fun x hx => hbs x (List.mem_cons_of_mem b hx)) _
      (edgesOk_pairStep ctx mask nodes g a b ha (hbs b (List.mem_cons_self b bs')) hok)

theorem edgesOk_pairsFold (ctx : GeoCtx α P) (mask : α) (nodes : List (GNode P)) :
    ∀ (todo : List (GNode P)), (∀ x ∈ todo, x ∈ nodes) → ∀ (g : Graph α P),
      EdgesOk ctx nodes g → EdgesOk ctx nodes (pairsFold ctx mask todo g) := by
  intro todo
  induction todo with
  | nil => intro _ g hok; exact hok
  | cons a rest ih =>
    intro htodo g hok
    rw [pairsFold]
    exact ih (fun x hx => htodo x (List.mem_cons_of_mem a hx)) _
      (edgesOk_innerFold ctx mask nodes a (htodo a (List.mem_cons_self a rest)) rest
        (fun x hx => htodo x (List.mem_cons_of_mem a hx)) g hok)

theorem buildGraph_edges (ctx : GeoCtx α P) (nodes : List (GNode P)) (mask : α)
    (g : Graph α P) (hbg : BuildGraph ctx nodes mask = .ok g) :
    EdgesOk ctx nodes g := by
  rw [BuildGraph] at hbg
  cases hm : buildNodesMap nodes ([] : List (String × GNode P)) with
  | none => rw [hm] at hbg; cases hbg
  | some m =>
    rw [hm] at hbg
    cases hbg
    refine edgesOk_pairsFold ctx mask nodes nodes (fun x hx => hx) _ ?_
    intro u e he
    rw [adjList] at he
    simp [mlookup] at he

def idsOf {Q : Type} (nodes : List (GNode Q)) : List String := nodes.map GNode.id

theorem buildNodesMap_none_iff (nodes : List (GNode P))
    (acc : List (String × GNode P)) :
    buildNodesMap nodes acc = none ↔ ∃ n ∈ nodes, n.id = "" := by
  induction nodes generalizing acc with
  | nil => simp [buildNodesMap]
  | cons n rest ih =>
    by_cases hn : n.id = ""
    · simp [buildNodesMap, hn]
    · simp only [buildNodesMap, hn, if_false, ih, List.mem_cons]
      constructor
      · rintro ⟨x, hx, he⟩; exact ⟨x, Or.inr hx, he⟩
      · rintro ⟨x, hx | hx, he⟩
        · subst hx; exact absurd he hn
        · exact ⟨x, hx, he⟩

theorem buildNodesMap_some_eq (nodes : List (GNode P)) :
    ∀ (acc m : List (String × GNode P)), buildNodesMap nodes acc = some m →
      m = nodes.foldl (fun a n => minsert a n.id n) acc := by
  induction nodes with
  | nil => intro acc m h; cases h; rfl
  | cons n rest ih =>
    intro acc m h
    rw [buildNodesMap] at h
    by_cases hn : n.id = ""
    · rw [if_pos hn] at h; cases h
    · rw [if_neg hn] at h
      rw [List.foldl_cons]
      exact ih _ m h

theorem foldl_minsert_isSome (nodes : List (GNode P)) :
    ∀ (acc : List (String × GNode P)) (x : String),
      ((mlookup acc x).isSome = true ∨ x ∈ idsOf nodes) →
      (mlookup (nodes.foldl (fun a n => minsert a n.id n) acc) x).isSome = true := by
  induction nodes with
  | nil =>
    intro acc x h
    rcases h with h | h
    · exact h
    · simp [idsOf] at h
  | cons n rest ih =>
    intro acc x h
    rw [List.foldl_cons]
    apply ih
    rcases h with h | h
    · exact Or.inl (mlookup_minsert_isSome acc n.id x n h)
    · rw [idsOf, List.map_cons, List.mem_cons] at h
      rcases h with h | h
      · subst h
        left
        rw [mlookup_minsert_self]
        rfl
      · exact Or.inr h

theorem foldl_minsert_notin (nodes : List (GNode P)) :
    ∀ (acc : List (String × GNode P)) (x : String), x ∉ idsOf nodes →
      mlookup (nodes.foldl (fun a n => minsert a n.id n) acc) x = mlookup acc x := by
  induction nodes with
  | nil => intro acc x _; rfl
  | cons n rest ih =>
    intro acc x hx
    rw [idsOf, List.map_cons, List.mem_cons] at hx
    push_neg at hx
    rw [List.foldl_cons, ih _ x (by rw [idsOf]; exact hx.2),
      mlookup_minsert_ne acc n.id x n hx.1]

theorem foldl_minsert_self (nodes : List (GNode P)) (hnd : (idsOf nodes).Nodup) :
    ∀ (acc : List (String × GNode P)) (n : GNode P), n ∈ nodes →
      mlookup (nodes.foldl (fun a m => minsert a m.id m) acc) n.id = some n := by
  induction nodes with
  | nil => intro acc n hn; cases hn
  | cons m rest ih =>
    intro acc n hn
    rw [idsOf, List.map_cons, List.nodup_cons] at hnd
    rcases List.mem_cons.mp hn with heq | hmem
    · subst heq
      rw [List.foldl_cons, foldl_minsert_notin rest _ n.id (by rw [idsOf]; exact hnd.1),
        mlookup_minsert_self]
    · exact ih hnd.2 _ n hmem

theorem foldl_minsert_mem (nodes : List (GNode P)) :
    ∀ (acc : List (String × GNode P)) (x : String) (nd : GNode P),
      mlookup (nodes.foldl (fun a m => minsert a m.id m) acc) x = some nd →
      (nd ∈ nodes ∧ nd.id = x) ∨ mlookup acc x = some nd := by
  induction nodes with
  | nil => intro acc x nd h; exact Or.inr h
  | cons m rest ih =>
    intro acc x nd h
    rw [List.foldl_cons] at h
    rcases ih _ x nd h with ⟨h1, h2⟩ | h2
    · exact Or.inl ⟨List.mem_cons_of_mem m h1, h2⟩
    · by_cases hx : x = m.id
      · subst hx
        rw [mlookup_minsert_self] at h2
        cases h2
        exact Or.inl ⟨List.mem_cons_self m rest, rfl⟩
      · rw [mlookup_minsert_ne acc m.id x m hx] at h2
        exact Or.inr h2

/-! ### No parallel links from duplicate-free node lists -/

def AdjDst (g : Graph α P) (u : String) : List String :=
  (adjList g u).map Edge.dst

theorem adjDst_addEdge (ctx : GeoCtx α P) (g : Graph α P) (a b : GNode P)
    (u : String) :
    AdjDst (addEdge ctx g a b) u =
      if u = a.id then AdjDst g a.id ++ [b.id] else AdjDst g u := by
  rw [AdjDst, addEdge_adjList]
  by_cases hu : u = a.id
  · rw [if_pos hu, if_pos hu, List.map_append]
    rfl
  · rw [if_neg hu, if_neg hu]
    rfl

theorem pairStep_cases (ctx : GeoCtx α P) (mask : α) (g : Graph α P)
    (a b : GNode P) :
    pairStep ctx mask g a b = addEdge ctx (addEdge ctx g a b) b a ∨
      pairStep ctx mask g a b = g := by
  rw [pairStep]
  cases a.ntype <;> cases b.ntype
  · by_cases hv : ctx.satToSat a.pos b.pos = true
    · rw [if_pos hv]; exact Or.inl rfl
    · rw [if_neg hv]; exact Or.inr rfl
  · by_cases hv : ctx.groundToSat b.pos a.pos mask = true
    · rw [if_pos hv]; exact Or.inl rfl
    · rw [if_neg hv]; exact Or.inr rfl
  · by_cases hv : ctx.groundToSat a.pos b.pos mask = true
    · rw [if_pos hv]; exact Or.inl rfl
    · rw [if_neg hv]; exact Or.inr rfl
  · exact Or.inr rfl

theorem innerFold_adjDst (ctx : GeoCtx α P) (mask : α) (a : GNode P) :
    ∀ (bs : List (GNode P)) (g : Graph α P),
      a.id ∉ idsOf bs → (idsOf bs).Nodup →
      (∀ x ∈ AdjDst g a.id, x ∉ idsOf bs) →
      (∀ b ∈ bs, ∀ x ∈ AdjDst g b.id, x ≠ a.id) →
      (∀ u, (AdjDst g u).Nodup) →
      (∀ u, (AdjDst (bs.foldl (fun g' b => pairStep ctx mask g' a b) g) u).Nodup) ∧
      (∀ x ∈ AdjDst (bs.foldl (fun g' b => pairStep ctx mask g' a b) g) a.id,
        x ∈ AdjDst g a.id ∨ x ∈ idsOf bs) ∧
      (∀ u, u ≠ a.id →
        ∀ x ∈ AdjDst (bs.foldl (fun g' b => pairStep ctx mask g' a b) g) u,
          x ∈ AdjDst g u ∨ x = a.id) := by
  intro bs
  induction bs with
  | nil =>
    intro g _ _ _ _ hnd
    exact ⟨hnd, fun x hx => Or.inl hx, fun u _ x hx => Or.inl hx⟩
  | cons b bs' ih =>
    intro g hain hbnd hadst hbdst hnd
    rw [idsOf, List.map_cons, List.mem_cons] at hain
    push_neg at hain
    rw [idsOf, List.map_cons, List.nodup_cons] at hbnd
    rw [List.foldl_cons]
    have hbid : b.id ≠ a.id := fun hx => hain.1 hx.symm
    rcases pairStep_cases ctx mask g a b with hps | hps
    · rw [hps]
      have hd1 : ∀ u, AdjDst (addEdge ctx (addEdge ctx g a b) b a) u =
          if u = b.id then AdjDst g b.id ++ [a.id]
          else if u = a.id then AdjDst g a.id ++ [b.id] else AdjDst g u := by
        intro u
        rw [adjDst_addEdge]
        by_cases hub : u = b.id
        · rw [if_pos hub, if_pos hub, adjDst_addEdge, if_neg hbid]
        · rw [if_neg hub, if_neg hub, adjDst_addEdge]
      have pre1 : a.id ∉ idsOf bs' := fun hx => hain.2 hx
      have pre3 : ∀ x ∈ AdjDst (addEdge ctx (addEdge ctx g a b) b a) a.id,
          x ∉ idsOf bs' := by
        intro x hx
        rw [hd1, if_neg (fun hx2 => hbid hx2.symm), if_pos rfl] at hx
        rcases List.mem_append.mp hx with h1 | h2
        · intro hin
          exact hadst x h1 (by simp only [idsOf, List.map_cons]; exact List.mem_cons_of_mem _ hin)
        · simp only [List.mem_singleton] at h2
          subst h2
          exact hbnd.1
      have pre4 : ∀ b' ∈ bs', ∀ x ∈ AdjDst (addEdge ctx (addEdge ctx g a b) b a) b'.id,
          x ≠ a.id := by
        intro b' hb' x hx
        have hb'b : b'.id ≠ b.id := by
          intro he
          apply hbnd.1
          rw [← he]
          exact List.mem_map_of_mem GNode.id hb'
        have hb'a : b'.id ≠ a.id := by
          intro he
          apply hain.2
          rw [← he]
          exact List.mem_map_of_mem GNode.id hb'
        rw [hd1, if_neg hb'b, if_neg hb'a] at hx
        exact hbdst b' (List.mem_cons_of_mem b hb') x hx
      have pre5 : ∀ u, (AdjDst (addEdge ctx (addEdge ctx g a b) b a) u).Nodup := by
        intro u
        rw [hd1]
        by_cases hub : u = b.id
        · rw [if_pos hub]
          rw [List.nodup_append]
          refine ⟨hnd b.id, List.nodup_singleton _, ?_⟩
          intro x hx hx2
          simp only [List.mem_singleton] at hx2
          subst hx2
          exact hbdst b (List.mem_cons_self b bs') a.id hx rfl
        · rw [if_neg hub]
          by_cases hua : u = a.id
          · rw [if_pos hua]
            rw [List.nodup_append]
            refine ⟨hnd a.id, List.nodup_singleton _, ?_⟩
            intro x hx hx2
            simp only [List.mem_singleton] at hx2
            subst hx2
            exact hadst b.id hx (by simp only [idsOf, List.map_cons]; exact List.mem_cons_self _ _)
          · rw [if_neg hua]
            exact hnd u
      obtain ⟨c1, c2, c3⟩ := ih _ pre1 hbnd.2 pre3 pre4 pre5
      refine ⟨c1, ?_, ?_⟩
      · intro x hx
        rcases c2 x hx with h1 | h1
        · rw [hd1, if_neg (fun hx2 => hbid hx2.symm), if_pos rfl] at h1
          rcases List.mem_append.mp h1 with h2 | h2
          · exact Or.inl h2
          · simp only [List.mem_singleton] at h2
            subst h2
            exact Or.inr (by simp only [idsOf, List.map_cons]; exact List.mem_cons_self _ _)
        · exact Or.inr (by simp only [idsOf, List.map_cons]; exact List.mem_cons_of_mem _ h1)
      · intro u hu x hx
        rcases c3 u hu x hx with h1 | h1
        · rw [hd1] at h1
          by_cases hub : u = b.id
          · rw [if_pos hub] at h1
            rcases List.mem_append.mp h1 with h2 | h2
            · rw [hub]; exact Or.inl h2
            · simp only [List.mem_singleton] at h2
              exact Or.inr h2
          · rw [if_neg hub, if_neg hu] at h1
            exact Or.inl h1
        · exact Or.inr h1
    · rw [hps]
      have pre3 : ∀ x ∈ AdjDst g a.id, x ∉ idsOf bs' := by
        intro x hx hin
        exact hadst x hx (by simp only [idsOf, List.map_cons]; exact List.mem_cons_of_mem _ hin)
      have pre4 : ∀ b' ∈ bs', ∀ x ∈ AdjDst g b'.id, x ≠ a.id :=
        fun b' hb' => hbdst b' (List.mem_cons_of_mem b hb')
      obtain ⟨c1, c2, c3⟩ := ih g (fun hx => hain.2 hx) hbnd.2 pre3 pre4 hnd
      refine ⟨c1, ?_, c3⟩
      intro x hx
      rcases c2 x hx with h1 | h1
      · exact Or.inl h1
      · exact Or.inr (by simp only [idsOf, List.map_cons]; exact List.mem_cons_of_mem _ h1)

theorem pairsFold_adjDst_nodup (ctx : GeoCtx α P) (mask : α) :
    ∀ (todo : List (GNode P)) (g : Graph α P),
      (idsOf todo).Nodup →
      (∀ b ∈ todo, ∀ x ∈ AdjDst g b.id, x ∉ idsOf todo) →
      (∀ u, (AdjDst g u).Nodup) →
      ∀ u, (AdjDst (pairsFold ctx mask todo g) u).Nodup := by
  intro todo
  induction todo with
  | nil => intro g _ _ hnd u; exact hnd u
  | cons a rest ih =>
    intro g hndt htd hnd
    rw [pairsFold]
    have hanotin : a.id ∉ idsOf rest := by
      rw [idsOf, List.map_cons, List.nodup_cons] at hndt
      exact hndt.1
    have hndrest : (idsOf rest).Nodup := by
      rw [idsOf, List.map_cons, List.nodup_cons] at hndt
      exact hndt.2
    have hadst : ∀ x ∈ AdjDst g a.id, x ∉ idsOf rest := by
      intro x hx hin
      exact htd a (List.mem_cons_self a rest) x hx
        (by simp only [idsOf, List.map_cons]; exact List.mem_cons_of_mem _ hin)
    have hbdst : ∀ b ∈ rest, ∀ x ∈ AdjDst g b.id, x ≠ a.id := by
      intro b hb x hx he
      exact htd b (List.mem_cons_of_mem a hb) x hx
        (by rw [he]; simp only [idsOf, List.map_cons]; exact List.mem_cons_self _ _)
    obtain ⟨c1, _, c3⟩ := innerFold_adjDst ctx mask a rest g hanotin hndrest hadst hbdst hnd
    apply ih _ hndrest ?_ c1
    intro b hb x hx hin
    have hbne : b.id ≠ a.id := by
      intro he
      apply hanotin
      rw [← he]
      exact List.mem_map_of_mem GNode.id hb
    rcases c3 b.id hbne x hx with h1 | h1
    · exact htd b (List.mem_cons_of_mem a hb) x h1
        (by simp only [idsOf, List.map_cons]; exact List.mem_cons_of_mem _ hin)
    · subst h1
      exact hanotin hin

theorem pairStep_nodes (ctx : GeoCtx α P) (mask : α) (g : Graph α P)
    (a b : GNode P) : (pairStep ctx mask g a b).nodes = g.nodes := by
  rcases pairStep_cases ctx mask g a b with hps | hps <;> rw [hps] <;> rfl

theorem innerFold_nodes (ctx : GeoCtx α P) (mask : α) (a : GNode P) :
    ∀ (bs : List (GNode P)) (g : Graph α P),
      (bs.foldl (fun g' b => pairStep ctx mask g' a b) g).nodes = g.nodes := by
  intro bs
  induction bs with
  | nil => intro g; rfl
  | cons b bs' ih =>
    intro g
    rw [List.foldl_cons, ih, pairStep_nodes]

theorem pairsFold_nodes (ctx : GeoCtx α P) (mask : α) :
    ∀ (todo : List (GNode P)) (g : Graph α P),
      (pairsFold ctx mask todo g).nodes = g.nodes := by
  intro todo
  induction todo with
  | nil => intro g; rfl
  | cons a rest ih =>
    intro g
    rw [pairsFold, ih, innerFold_nodes]

/-- Inversion of a successful `BuildGraph` call. -/
theorem buildGraph_ok_inv (ctx : GeoCtx α P) (nodes : List (GNode P)) (mask : α)
    (g : Graph α P) (hbg : BuildGraph ctx nodes mask = .ok g) :
    g.nodes = nodes.foldl (fun a n => minsert a n.id n) [] ∧
      g = pairsFold ctx mask nodes
        { nodes := nodes.foldl (fun a n => minsert a n.id n) [], adj := [] } := by
  rw [BuildGraph] at hbg
  cases hm : buildNodesMap nodes ([] : List (String × GNode P)) with
  | none => rw [hm] at hbg; cases hbg
  | some m =>
    rw [hm] at hbg
    cases hbg
    have hme := buildNodesMap_some_eq nodes [] m hm
    subst hme
    exact ⟨by rw [pairsFold_nodes], rfl⟩

theorem buildGraph_hasNode (ctx : GeoCtx α P) (nodes : List (GNode P)) (mask : α)
    (g : Graph α P) (hbg : BuildGraph ctx nodes mask = .ok g) (n : GNode P)
    (hn : n ∈ nodes) : hasNode g n.id = true := by
  obtain ⟨hnodes, _⟩ := buildGraph_ok_inv ctx nodes mask g hbg
  rw [hasNode, hnodes]
  exact foldl_minsert_isSome nodes [] n.id (Or.inr (List.mem_map_of_mem GNode.id hn))

theorem buildGraph_lookup_self (ctx : GeoCtx α P) (nodes : List (GNode P))
    (mask : α) (g : Graph α P) (hnd : (idsOf nodes).Nodup)
    (hbg : BuildGraph ctx nodes mask = .ok g) (n : GNode P) (hn : n ∈ nodes) :
    mlookup g.nodes n.id = some n := by
  obtain ⟨hnodes, _⟩ := buildGraph_ok_inv ctx nodes mask g hbg
  rw [hnodes]
  exact foldl_minsert_self nodes hnd [] n hn

theorem buildGraph_lookup_mem (ctx : GeoCtx α P) (nodes : List (GNode P))
    (mask : α) (g : Graph α P) (hbg : BuildGraph ctx nodes mask = .ok g)
    (x : String) (nd : GNode P) (h : mlookup g.nodes x = some nd) :
    nd ∈ nodes ∧ nd.id = x := by
  obtain ⟨hnodes, _⟩ := buildGraph_ok_inv ctx nodes mask g hbg
  rw [hnodes] at h
  rcases foldl_minsert_mem nodes [] x nd h with h1 | h2
  · exact h1
  · cases h2

theorem speedOfLight_pos : (0 : α) < SpeedOfLightKMPerS := by
  rw [SpeedOfLightKMPerS]
  norm_num

/-- A duplicate-free node list yields a well-formed graph. -/
theorem buildGraph_wellFormed (ctx : GeoCtx α P) (hgeo : GeoOk ctx)
    (nodes : List (GNode P)) (mask : α) (g : Graph α P)
    (hnd : (idsOf nodes).Nodup) (hbg : BuildGraph ctx nodes mask = .ok g) :
    WellFormed g := by
  have hedges := buildGraph_edges ctx nodes mask g hbg
  refine ⟨?_, ?_, ?_, ?_⟩
  · intro u e he
    obtain ⟨a, b, _, _, _, hesh, _⟩ := hedges u e he
    rw [hesh, mkEdgeRec]
    have h1 : 0 ≤ ctx.slantRange a.pos b.pos := hgeo.sr_nonneg a.pos b.pos
    have h2 : (0 : α) < SpeedOfLightKMPerS := speedOfLight_pos
    positivity
  · intro u e he
    obtain ⟨a, b, ha, hb, _, hesh, hu⟩ := hedges u e he
    constructor
    · rw [hu]
      exact buildGraph_hasNode ctx nodes mask g hbg a ha
    · rw [hesh]
      exact buildGraph_hasNode ctx nodes mask g hbg b hb
  · intro u e he
    obtain ⟨a, b, _, _, _, hesh, hu⟩ := hedges u e he
    rw [hesh, hu]
    rfl
  · intro u
    obtain ⟨_, hgeq⟩ := buildGraph_ok_inv ctx nodes mask g hbg
    rw [hgeq]
    apply pairsFold_adjDst_nodup ctx mask nodes _ hnd
    · intro b _ x hx
      rw [AdjDst, adjList] at hx
      simp [mlookup] at hx
    · intro u2
      rw [AdjDst, adjList]
      simp [mlookup]

/-- Consistency of the graph's own heuristic on graphs built from duplicate-free
node lists: the straight-line estimate satisfies the triangle inequality against
every link latency. -/
theorem heurConsistent_own (ctx : GeoCtx α P) (hgeo : GeoOk ctx)
    (nodes : List (GNode P)) (mask : α) (g : Graph α P)
    (hnd : (idsOf nodes).Nodup) (hbg : BuildGraph ctx nodes mask = .ok g)
    (t : String) : HeurConsistent g (fun u => Heuristic ctx g u t) := by
  intro u e he
  obtain ⟨a, b, ha, hb, _, hesh, hu⟩ := buildGraph_edges ctx nodes mask g hbg u e he
  have hla : mlookup g.nodes a.id = some a :=
    buildGraph_lookup_self ctx nodes mask g hnd hbg a ha
  have hlb : mlookup g.nodes b.id = some b :=
    buildGraph_lookup_self ctx nodes mask g hnd hbg b hb
  have hlat : e.latencyMS = ctx.slantRange a.pos b.pos / SpeedOfLightKMPerS * 1000 := by
    rw [hesh]; rfl
  have hdst : e.dst = b.id := by rw [hesh]; rfl
  cases hlt : mlookup g.nodes t with
  | none =>
    simp only [Heuristic, hu, hdst, hla, hlb, hlt]
    have h1 : 0 ≤ ctx.slantRange a.pos b.pos := hgeo.sr_nonneg a.pos b.pos
    have h2 : (0 : α) < SpeedOfLightKMPerS := speedOfLight_pos
    rw [hlat]
    positivity
  | some nt =>
    simp only [Heuristic, hu, hdst, hla, hlb, hlt]
    rw [hlat]
    have htri := hgeo.sr_triangle a.pos b.pos nt.pos
    have h2 : (0 : α) < SpeedOfLightKMPerS := speedOfLight_pos
    rw [div_mul_eq_mul_div, div_mul_eq_mul_div, div_mul_eq_mul_div,
      div_add_div_same]
    apply div_le_div_of_nonneg_right ?_ h2.le
    · calc ctx.slantRange a.pos nt.pos * 1000
          ≤ (ctx.slantRange a.pos b.pos + ctx.slantRange b.pos nt.pos) * 1000 := by
            apply mul_le_mul_of_nonneg_right htri
            norm_num
        _ = ctx.slantRange a.pos b.pos * 1000 + ctx.slantRange b.pos nt.pos * 1000 := by
            ring

end GraphBuilder

/-! ## Claim C1 — `ShortestPath` contract

The claim as frozen quantifies over *every* graph.  The code falsifies it: a
node list with a duplicated identity passes `BuildGraph`'s (empty-only) identity
check and produces two parallel links for one ordered node pair; the search then
relaxes the cheaper parallel link while `computePathMetrics` replays the first
one, so the returned "shortest" latency can exceed another path's latency.
`gParallel` is such a graph written out directly (integer-valued link weights,
exactly representable as floats). -/

def gParallel : Graph ℤ Unit :=
  { nodes := [("a", ⟨"a", .satellite, ()⟩), ("b", ⟨"b", .satellite, ()⟩),
      ("c", ⟨"c", .satellite, ()⟩)],
    adj := [("a", [⟨"a", "b", 10, 0⟩, ⟨"a", "b", 1, 0⟩, ⟨"a", "c", 5, 0⟩]),
            ("c", [⟨"c", "b", 4, 0⟩])] }

/-- Claim C1, counterexample: on `gParallel` (nonnegative latencies, start and
goal both present, a route present), `ShortestPath` with the always-zero
heuristic returns the path `["a","b"]` with latency `10`, yet `["a","c","b"]` is
a path of latency `9` — the returned total latency is *not* the minimum over all
paths, refuting the claim as stated. -/
theorem claimC1_counterexample :
    ShortestPath gParallel "a" "b" (fun _ => (0 : ℤ)) =
      .ok ⟨["a", "b"], 10, ((0 : ℤ) : WithTop ℤ)⟩ ∧
    hasNode gParallel "a" = true ∧ hasNode gParallel "b" = true ∧
    IsPathFrom gParallel "a" "b" ["a", "c", "b"] ∧
    latSum gParallel ["a", "c", "b"] = 9 := by
  refine ⟨?_, ?_, ?_, ?_, ?_⟩ <;> decide

/-- Claim C1, amended: restricted to graphs satisfying the spec's own data-model
invariant (`WellFormed`: nonnegative latencies, link endpoints present, at most
one link per ordered pair) and, for the positive cases, to the two heuristics the
claim names — always-zero, or the graph's own heuristic when the graph was built
by `BuildGraph` from a duplicate-free node list over a geometry with nonnegative,
triangle-inequality slant range.  Then: an absent start or goal yields the
node-not-found errors; with a route, the search returns a loopless path from `s`
to `t` whose metrics are replayed from the graph's links and whose total latency
is minimal over all paths; with no route it fails with the no-route error. -/
theorem claimC1_shortest_path {α : Type} [LinearOrderedField α] {P : Type}
    (ctx : GeoCtx α P) (g : Graph α P) (s t : String) (h : String → α) :
    (hasNode g s = false → ShortestPath g s t h = .error (.unknownStart s)) ∧
    (hasNode g s = true → hasNode g t = false →
      ShortestPath g s t h = .error (.unknownGoal t)) ∧
    (WellFormed g →
      (h = (fun _ => 0) ∨
        (GeoOk ctx ∧
          (∃ ns mask, (idsOf ns).Nodup ∧ BuildGraph ctx ns mask = .ok g) ∧
          h = fun u => Heuristic ctx g u t)) →
      hasNode g s = true → hasNode g t = true →
      ((∃ l, IsPathFrom g s t l) →
        ∃ p, ShortestPath g s t h = .ok p ∧ OkSpec g s t p) ∧
      ((∀ l, ¬ IsPathFrom g s t l) → ShortestPath g s t h = .error .noRoute)) := by
  refine ⟨?_, ?_, ?_⟩
  · intro hs
    exact ShortestPath_unknownStart g s t h (by rw [hs]; intro hx; cases hx)
  · intro hs ht
    exact ShortestPath_unknownGoal g s t h hs (by rw [ht]; intro hx; cases hx)
  · intro wf hh hs ht
    have hcons : HeurConsistent g h := by
      rcases hh with hz | ⟨hgeo, ⟨ns, mask, hnd, hbg⟩, hown⟩
      · rw [hz]; exact heurConsistent_zero g wf
      · rw [hown]; exact heurConsistent_own ctx hgeo ns mask g hnd hbg t
    have hspec := ShortestPath_spec g s t h wf hcons hs ht
    constructor
    · rintro ⟨l, hl⟩
      rcases hspec with hok | ⟨_, hnone⟩
      · exact hok
      · exact absurd hl (hnone l)
    · intro hnone
      rcases hspec with ⟨p, _, hpok⟩ | hnr
      · exact absurd hpok.1 (hnone p.nodes)
      · exact hnr.1

/-- A two-satellite node list and an all-visible zero-range geometry over `ℚ`,
used to instantiate the amended C1 at a `BuildGraph`-produced graph. -/
def ctxW : GeoCtx ℚ Unit :=
  ⟨fun _ _ => 0, fun _ _ => true, fun _ _ _ => true⟩

def nsW : List (GNode Unit) :=
  [⟨"x", .satellite, ()⟩, ⟨"y", .satellite, ()⟩]

def gW : Graph ℚ Unit :=
  match BuildGraph ctxW nsW 0 with
  | .ok g => g
  | .error _ => { nodes := [], adj := [] }

theorem gW_build : BuildGraph ctxW nsW 0 = .ok gW := rfl

theorem geoOk_ctxW : GeoOk ctxW :=
  ⟨fun _ _ => le_refl 0, fun _ _ _ => by norm_num [ctxW]⟩

/-- Witness for the amended C1: instantiated at the `BuildGraph` output `gW` for
both named heuristics (with its hypotheses discharged concretely), and at an
absent start node for the error case. -/
theorem claimC1_shortest_path_witness :
    (∃ p, ShortestPath gW "x" "y" (fun _ => (0 : ℚ)) = .ok p ∧ OkSpec gW "x" "y" p) ∧
    (∃ p, ShortestPath gW "x" "y" (fun u => Heuristic ctxW gW u "y") = .ok p ∧
      OkSpec gW "x" "y" p) ∧
    ShortestPath gW "zz" "y" (fun _ => (0 : ℚ)) = .error (.unknownStart "zz") := by
  have hnd : (idsOf nsW).Nodup := by decide
  have wf : WellFormed gW := buildGraph_wellFormed ctxW geoOk_ctxW nsW 0 gW hnd gW_build
  have hpath : ∃ l, IsPathFrom gW "x" "y" l := by
    refine ⟨["x", "y"], rfl, rfl, ?_, trivial⟩
    rfl
  have hsx : hasNode gW "x" = true := rfl
  have hsy : hasNode gW "y" = true := rfl
  refine ⟨?_, ?_, ?_⟩
  · exact ((claimC1_shortest_path ctxW gW "x" "y" (fun _ => 0)).2.2 wf
      (Or.inl rfl) hsx hsy).1 hpath
  · exact ((claimC1_shortest_path ctxW gW "x" "y"
      (fun u => Heuristic ctxW gW u "y")).2.2 wf
      (Or.inr ⟨geoOk_ctxW, ⟨nsW, 0, hnd, gW_build⟩, rfl⟩) hsx hsy).1 hpath
  · exact (claimC1_shortest_path ctxW gW "zz" "y" (fun _ => 0)).1 rfl

/-! ## Coverage grid (`backend/coverage/grid.go`)

The aggregator is an external collaborator per the spec; it is embedded here
because the engine folds its output into the `Snapshot`.  The point-in-footprint
test (haversine distance) is transcendental, so it is taken as a parameter
exactly like the visibility predicates. -/

section Coverage

variable {α : Type} [LinearOrderedField α]

structure GridConfig (α : Type) where
  latStep : α
  lonStep : α
deriving Repr

inductive GridErr
  | stepsNotPositive
  | stepsTooLarge
deriving DecidableEq, Repr

/-- `GridConfig.Validate`. -/
def GridConfig.validate (c : GridConfig α) : Except GridErr Unit :=
  if c.latStep ≤ 0 ∨ c.lonStep ≤ 0 then .error .stepsNotPositive
  else if 180 < c.latStep ∨ 360 < c.lonStep then .error .stepsTooLarge
  else .ok ()

structure Footprint (α : Type) where
  centerLat : α
  centerLon : α
  radiusKm : α
  linkStrength : α
deriving Repr

structure Cell (α : Type) where
  lat : α
  lon : α
  coverageCount : Nat
  strongestLink : α
deriving Repr

/-- The Go sampling loop `for v := lo + step/2; v < hi; v += step`, modeled with a
fuel argument (Go float loops terminate by float arithmetic; every validated
configuration used below needs only a few iterations). -/
def gridAxis (stop step : α) : Nat → α → List α
  | 0, _ => []
  | Nat.succ n, cur =>
    if cur < stop then cur :: gridAxis stop step n (cur + step) else []

def gridFuel : Nat := 4000000

structure CoverageGrid (α : Type) where
  config : GridConfig α
  cells : List (Cell α)
deriving Repr

/-- `coverage.NewCoverageGrid`. -/
def NewCoverageGrid (config : GridConfig α) : Except GridErr (CoverageGrid α) :=
  match config.validate with
  | .error e => .error e
  | .ok _ =>
    let lats := gridAxis 90 config.latStep gridFuel (-90 + config.latStep / 2)
    let lons := gridAxis 180 config.lonStep gridFuel (-180 + config.lonStep / 2)
    .ok ⟨config,
      (lats.map (fun la => lons.map (fun lo => (⟨la, lo, 0, 0⟩ : Cell α)))).flatten⟩

/-- `CoverageGrid.ApplyFootprints`, parameterized by the point-in-footprint
predicate (haversine in the source). -/
def ApplyFootprints (inFp : α → α → Footprint α → Bool) (g : CoverageGrid α)
    (fps : List (Footprint α)) : CoverageGrid α :=
  { g with
    cells := g.cells.map (fun cell =>
      fps.foldl (fun c fp =>
        if fp.radiusKm ≤ 0 then c
        else if inFp c.lat c.lon fp then
          { c with
            coverageCount := c.coverageCount + 1,
            strongestLink :=
              if c.strongestLink < fp.linkStrength then fp.linkStrength
              else c.strongestLink }
        else c) cell) }

structure GapSample (α : Type) where
  lat : α
  lon : α
deriving Repr

structure Summary (α : Type) where
  totalCells : Nat
  coveredCells : Nat
  coveragePercent : α
  uncoveredSamples : List (GapSample α)
deriving Repr

/-- `Cell.Covered`. -/
def Cell.covered (c : Cell α) : Bool := decide (0 < c.coverageCount)

/-- `CoverageGrid.Summarize`. -/
def Summarize (g : CoverageGrid α) : Summary α :=
  let covered := (g.cells.filter (fun c => c.covered)).length
  let gaps := (g.cells.filter (fun c => ¬ c.covered)).map
    (fun c => (⟨c.lat, c.lon⟩ : GapSample α))
  let total := g.cells.length
  let percent : α := if 0 < total then ((covered : α) / (total : α)) * 100 else 0
  ⟨total, covered, percent, gaps⟩

structure HeatmapCell (α : Type) where
  lat : α
  lon : α
  covered : Bool
  count : Nat
  strength : α
deriving Repr

/-- `CoverageGrid.HeatmapData`. -/
def HeatmapData (g : CoverageGrid α) : List (HeatmapCell α) :=
  g.cells.map (fun c => ⟨c.lat, c.lon, c.covered, c.coverageCount, c.strongestLink⟩)

end Coverage

/-! ## Simulation engine (the `simulation` package)

Go's `map` iteration order is unspecified; the model keeps the rosters as
association lists and iterates them in list order, so a single Go state is
represented by the family of simulators whose rosters are permutations of one
another.  The bounded event channel (capacity 8, try-send drop-on-full) is a
list capped at 8. -/

section Simulation

variable {α : Type} [LinearOrderedField α] {P : Type}

structure SatState (α P : Type) where
  id : String
  pos : P
  footprint : Footprint α
  active : Bool
deriving Repr

structure GroundSt (P : Type) where
  id : String
  pos : P
deriving Repr

structure TrafficDemand where
  id : String
  fromId : String
  toId : String
deriving DecidableEq, Repr

structure SimConfig (α P : Type) where
  satellites : List (SatState α P)
  groundStations : List (GroundSt P)
  traffic : List TrafficDemand
  gridConfig : GridConfig α
  elevationMask : α

inductive EventType
  | topologyUpdated
  | coverageUpdated
deriving DecidableEq, Repr

structure Snapshot (α : Type) where
  timestamp : Nat
  activeSatellites : List String
  disabledSatellites : List String
  coverage : Summary α
  heatmap : List (HeatmapCell α)
  routes : List (String × PathR α)
deriving Repr

structure Event (α : Type) where
  etype : EventType
  snapshot : Snapshot α
deriving Repr

def defaultSnapshot : Snapshot α := ⟨0, [], [], ⟨0, 0, 0, []⟩, [], []⟩

structure Simulator (α P : Type) where
  elevationMask : α
  gridConfig : GridConfig α
  satellites : List (String × SatState α P)
  ground : List (String × GroundSt P)
  traffic : List TrafficDemand
  graph : Option (Graph α P)
  routes : List (String × PathR α)
  events : List (Event α)
  snapshot : Snapshot α

inductive SimErr
  | gridInvalid (e : GridErr)
  | noSatellites
  | noGroundStations
  | emptySatelliteID
  | duplicateSatelliteID
  | emptyGroundStationID
  | unknownSatellite
  | buildFailed (e : BuildErr)
deriving DecidableEq, Repr

/-- Non-blocking try-send on the capacity-8 event channel. -/
def publishEvent (s : Simulator α P) (etype : EventType) (snap : Snapshot α) :
    Simulator α P :=
  if s.events.length < 8 then { s with events := s.events ++ [⟨etype, snap⟩] }
  else s

/-- `recomputeLocked`: rebuild the graph from active nodes, re-route every
demand (unroutable demands are simply omitted), rebuild coverage, store and
publish the new snapshot.  The returned simulator is the mutated receiver —
including the partial mutations Go performs before a failure point. -/
def recomputeLocked (ctx : GeoCtx α P) (inFp : α → α → Footprint α → Bool)
    (s : Simulator α P) (now : Nat) :
    Simulator α P × Except SimErr (Snapshot α) :=
  let activeSats := s.satellites.filter (fun kv => kv.2.active)
  let inactiveSats := s.satellites.filter (fun kv => ¬ kv.2.active)
  let nodes := activeSats.map (fun kv => (⟨kv.2.id, .satellite, kv.2.pos⟩ : GNode P))
    ++ s.ground.map (fun kv => (⟨kv.2.id, .ground, kv.2.pos⟩ : GNode P))
  let activeIDs := activeSats.map (fun kv => kv.2.id)
  let disabledIDs := inactiveSats.map (fun kv => kv.2.id)
  let footprints := activeSats.map (fun kv => kv.2.footprint)
  match BuildGraph ctx nodes s.elevationMask with
  | .error e => (s, .error (.buildFailed e))
  | .ok graph =>
    let s1 := { s with graph := some graph }
    let routes := s.traffic.foldl
      (fun acc d =>
        match ShortestPath graph d.fromId d.toId
          (fun id => Heuristic ctx graph id d.toId) with
        | .ok p => minsert acc d.id p
        | .error _ => acc) []
    let s2 := { s1 with routes := routes }
    match NewCoverageGrid s2.gridConfig with
    | .error e => (s2, .error (.gridInvalid e))
    | .ok grid =>
      let grid2 := ApplyFootprints inFp grid footprints
      let summary := Summarize grid2
      let snap : Snapshot α :=
        ⟨now, activeIDs, disabledIDs, summary, HeatmapData grid2, routes⟩
      let s3 := { s2 with snapshot := snap }
      let s4 := publishEvent (publishEvent s3 .topologyUpdated snap) .coverageUpdated snap
      (s4, .ok snap)

/-- The satellite-roster construction loop of `NewSimulator`: empty identities
and duplicate identities are rejected, and every satellite is marked active. -/
def buildSatRoster : List (SatState α P) → List (String × SatState α P) →
    Except SimErr (List (String × SatState α P))
  | [], acc => .ok acc
  | sat :: rest, acc =>
    if sat.id = "" then .error .emptySatelliteID
    else if (mlookup acc sat.id).isSome then .error .duplicateSatelliteID
    else buildSatRoster rest (minsert acc sat.id { sat with active := true })

/-- The ground-roster loop: empty identities rejected, duplicates silently
overwrite (the source has no duplicate check here). -/
def buildGroundRoster : List (GroundSt P) → List (String × GroundSt P) →
    Except SimErr (List (String × GroundSt P))
  | [], acc => .ok acc
  | gs :: rest, acc =>
    if gs.id = "" then .error .emptyGroundStationID
    else buildGroundRoster rest (minsert acc gs.id gs)

/-- `simulation.NewSimulator`. -/
def NewSimulator (ctx : GeoCtx α P) (inFp : α → α → Footprint α → Bool)
    (cfg : SimConfig α P) (now : Nat) : Except SimErr (Simulator α P) :=
  match cfg.gridConfig.validate with
  | .error e => .error (.gridInvalid e)
  | .ok _ =>
    if cfg.satellites.isEmpty then .error .noSatellites
    else if cfg.groundStations.isEmpty then .error .noGroundStations
    else
      match buildSatRoster cfg.satellites [] with
      | .error e => .error e
      | .ok sats =>
        match buildGroundRoster cfg.groundStations [] with
        | .error e => .error e
        | .ok ground =>
          let s0 : Simulator α P :=
            { elevationMask := cfg.elevationMask, gridConfig := cfg.gridConfig,
              satellites := sats, ground := ground, traffic := cfg.traffic,
              graph := none, routes := [], events := [],
              snapshot := defaultSnapshot }
          match recomputeLocked ctx inFp s0 now with
          | (_, .error e) => .error e
          | (s1, .ok _) => .ok s1

/-- `Simulator.DisableSatellite`.  Note the roster mutation happens before the
recompute, exactly as in the source. -/
def DisableSatellite (ctx : GeoCtx α P) (inFp : α → α → Footprint α → Bool)
    (s : Simulator α P) (id : String) (now : Nat) :
    Simulator α P × Except SimErr (Snapshot α) :=
  match mlookup s.satellites id with
  | none => (s, .error .unknownSatellite)
  | some sat =>
    let s1 := { s with satellites := minsert s.satellites id { sat with active := false } }
    recomputeLocked ctx inFp s1 now

/-- `Simulator.RemoveSatellite`. -/
def RemoveSatellite (ctx : GeoCtx α P) (inFp : α → α → Footprint α → Bool)
    (s : Simulator α P) (id : String) (now : Nat) :
    Simulator α P × Except SimErr (Snapshot α) :=
  match mlookup s.satellites id with
  | none => (s, .error .unknownSatellite)
  | some _ =>
    let s1 := { s with satellites := mdelete s.satellites id }
    recomputeLocked ctx inFp s1 now

/-- `Simulator.Recompute`. -/
def Recompute (ctx : GeoCtx α P) (inFp : α → α → Footprint α → Bool)
    (s : Simulator α P) (now : Nat) :
    Simulator α P × Except SimErr (Snapshot α) :=
  recomputeLocked ctx inFp s now

end Simulation

end SatNet
